import Mathlib

/-!
Verification of the row-append ("rbind") subsystem of the datatable
repository, as implemented in src/core/frame/rbind.cc.

The embedding is shallow: the C++ code is translated into executable Lean
definitions.  Stateful buffer-building loops become explicit state passing;
machine unsigned integers (the 32- and 64-bit string offsets) become Nat
with explicit reductions modulo 2^32 / 2^64 where overflow matters; fallible
operations return Except.  Sequential pointer writes into a pre-resized
buffer are realized as appends at the write cursor.  Components of the
repository that rbind.cc calls but that are not part of this file of the
repository (the type-promotion table Type::common, the casting machinery,
the NA sentinel constants for string offsets, and Column::MAX_ARR32_SIZE)
are modelled from the specification, and are marked as such in their doc
comments.
-/

namespace Datatable

/-- Element/storage types of columns (stype.h).  Strings come in two
physical offset widths, STR32 and STR64. -/
inductive SType where
  | void | bool8 | int8 | int16 | int32 | int64
  | float32 | float64 | str32 | str64 | obj
deriving DecidableEq, Inhabited

/-- Logical type kinds, selecting the physical representation (ltype.h). -/
inductive LType where
  | ltvoid | ltbool | ltint | ltreal | ltstring | ltobj
deriving DecidableEq, Inhabited

/-- Map from storage type to logical kind. -/
def SType.ltype : SType → LType
  | .void => .ltvoid
  | .bool8 => .ltbool
  | .int8 | .int16 | .int32 | .int64 => .ltint
  | .float32 | .float64 => .ltreal
  | .str32 | .str64 => .ltstring
  | .obj => .ltobj

/-- Position on the numeric promotion ladder (spec section 4.4). -/
def SType.rank : SType → Nat
  | .void => 0 | .bool8 => 1 | .int8 => 2 | .int16 => 3 | .int32 => 4
  | .int64 => 5 | .float32 => 6 | .float64 => 7 | .str32 => 8 | .str64 => 9
  | .obj => 10

/-- Membership in the numeric promotion ladder. -/
def SType.isNumericLadder (t : SType) : Bool :=
  match t with
  | .bool8 | .int8 | .int16 | .int32 | .int64 | .float32 | .float64 => true
  | _ => false

/-- String storage types. -/
def SType.isStringType (t : SType) : Bool :=
  match t with
  | .str32 | .str64 => true
  | _ => false

/-- Modelled from the spec (section 4.4): the promotion lattice Type::common
is implemented outside the rbind translation unit.  void is the identity;
equal types are their own common type; types on the numeric ladder
bool8 < int8 < int16 < int32 < int64 < float32 < float64 promote to the
larger; the two string widths promote to the wider string; everything else
(string with numeric, object with any other concrete type) has no common
type. -/
def SType.common (a b : SType) : Option SType :=
  if a = b then some a
  else if a = .void then some b
  else if b = .void then some a
  else if a.isNumericLadder && b.isNumericLadder then
    some (if a.rank ≤ b.rank then b else a)
  else if a.isStringType && b.isStringType then some .str64
  else none

/-- Element types in the sense of the spec data model (section 3): the two
string storage widths are one element type. -/
inductive EType where
  | evoid | ebool | eint8 | eint16 | eint32 | eint64
  | efloat32 | efloat64 | estring | eobj
deriving DecidableEq, Inhabited

/-- Element type of a storage type. -/
def SType.etype : SType → EType
  | .void => .evoid
  | .bool8 => .ebool
  | .int8 => .eint8
  | .int16 => .eint16
  | .int32 => .eint32
  | .int64 => .eint64
  | .float32 => .efloat32
  | .float64 => .efloat64
  | .str32 | .str64 => .estring
  | .obj => .eobj

/-- Offset width in bits of a string storage type. -/
def strWidth (st : SType) : Nat := if st = .str64 then 64 else 32

/-- Physical column payloads (spec section 3).  Fixed-width and object slots
hold logical values, with the NA sentinel pattern of the source represented
as none.  String columns hold the raw per-row end-offset words (the NA tag
is the high bit of the word) and the string byte buffer. -/
inductive ColumnImpl where
  | constNA
  | fw (vals : List (Option Int))
  | str (offs : List Nat) (sbuf : List Nat)
  | obj (vals : List (Option Int))
deriving DecidableEq, Inhabited

/-- A single column: storage type, row count, payload. -/
structure Column where
  stype : SType
  nrows : Nat
  impl : ColumnImpl
deriving DecidableEq, Inhabited

/-- Fixed-width payload of a column (empty for other representations). -/
def Column.fwVals (c : Column) : List (Option Int) :=
  match c.impl with
  | .fw v => v
  | _ => []

/-- String offset words of a column (empty for other representations). -/
def Column.strOffs (c : Column) : List Nat :=
  match c.impl with
  | .str o _ => o
  | _ => []

/-- String byte buffer of a column (empty for other representations). -/
def Column.strBuf (c : Column) : List Nat :=
  match c.impl with
  | .str _ s => s
  | _ => []

/-- Object payload of a column (empty for other representations). -/
def Column.objVals (c : Column) : List (Option Int) :=
  match c.impl with
  | .obj v => v
  | _ => []

/-- Model of Column::new_na_column: a column of the given type whose every
value is missing.  For a string type all end-offset words carry the NA tag
(high bit) with magnitude 0 and the byte buffer is empty. -/
def naColumn (nrows : Nat) (st : SType) : Column :=
  match st.ltype with
  | .ltvoid => ⟨st, nrows, .constNA⟩
  | .ltbool | .ltint | .ltreal => ⟨st, nrows, .fw (List.replicate nrows none)⟩
  | .ltstring => ⟨st, nrows, .str (List.replicate nrows (2 ^ (strWidth st - 1))) []⟩
  | .ltobj => ⟨st, nrows, .obj (List.replicate nrows none)⟩

/-- Modelled from the spec: translation of one string end-offset word
between offset widths; the NA tag bit is re-expressed at the new width
(spec sections 3 and 4.7). -/
def castStrOffset (wSrc wDst : Nat) (e : Nat) : Nat :=
  (e % 2 ^ (wSrc - 1)) + (if Nat.testBit e (wSrc - 1) then 2 ^ (wDst - 1) else 0)

/-- Modelled from the spec: the casting machinery (Column::cast /
cast_inplace) lives outside the rbind translation unit.  Upcasts along the
numeric ladder preserve logical values (slots are logical values in this
embedding); string-to-string casts translate the offset words to the new
width; casts to object box the logical values; combinations that can never
be requested by rbind (they have no common type) default to an all-NA
column of the requested type. -/
def castColumn (c : Column) (st : SType) : Column :=
  match c.impl with
  | .fw vals =>
      match st.ltype with
      | .ltbool | .ltint | .ltreal => ⟨st, c.nrows, .fw vals⟩
      | .ltobj => ⟨st, c.nrows, .obj vals⟩
      | _ => naColumn c.nrows st
  | .str offs sbuf =>
      match st.ltype with
      | .ltstring =>
          ⟨st, c.nrows, .str (offs.map (castStrOffset (strWidth c.stype) (strWidth st))) sbuf⟩
      | .ltobj => naColumn c.nrows st
      | _ => naColumn c.nrows st
  | .constNA => naColumn c.nrows st
  | .obj vals =>
      match st.ltype with
      | .ltobj => ⟨st, c.nrows, .obj vals⟩
      | _ => naColumn c.nrows st

/-- Cast step applied to each appended column inside the fixed-width
appender: a column whose type differs from the target type is cast in
place (rbind.cc lines 644-647). -/
def fwNormalize (st : SType) (c : Column) : Column :=
  if c.stype = st then c else castColumn c st

/-- Main loop of dt::SentinelFw_ColumnImpl::rbind_impl (rbind.cc lines
635-658): VOID columns extend a pending NA run; other columns flush the
pending run as NA slots and then contribute their own slots; a trailing
pending run is flushed at the end.  The write pointer resptr is realized
as the end of the accumulator list. -/
def fwLoop (st : SType) : List Column → List (Option Int) → Nat → List (Option Int)
  | [], acc, pending => acc ++ List.replicate pending (none : Option Int)
  | c :: cs, acc, pending =>
      if c.stype = .void then
        fwLoop st cs acc (pending + c.nrows)
      else
        fwLoop st cs ((acc ++ List.replicate pending none) ++ (fwNormalize st c).fwVals) 0

/-- Model of dt::SentinelFw_ColumnImpl::rbind_impl (rbind.cc lines
612-661).  When the original column was empty (VOID start) its old rows
become an initial pending-NA run; otherwise its slots are copied first. -/
def fwRbindImpl (st : SType) (selfVals : List (Option Int)) (selfNrows : Nat)
    (columns : List Column) (colEmpty : Bool) : List (Option Int) :=
  if colEmpty then fwLoop st columns [] selfNrows
  else fwLoop st columns selfVals 0

/-- NA test on a string end-offset word: the dedicated high bit
(ISNA on unsigned offsets; modelled from the spec, section 3). -/
def offNA (w : Nat) (e : Nat) : Bool := Nat.testBit e (w - 1)

/-- Magnitude of a string end-offset word with the NA tag removed
(offset AND NOT GETNA; modelled from the spec, section 3). -/
def offVal (w : Nat) (e : Nat) : Nat := e % 2 ^ (w - 1)

/-- The constant delta_na of rbind.cc line 573: difference of the 64-bit
and 32-bit NA tag values.  GETNA on unsigned offsets is the high bit
(modelled from the spec, section 3). -/
def deltaNA : Nat := 2 ^ 63 - 2 ^ 31

/-- Modelled from the spec: Column::MAX_ARR32_SIZE, the 32-bit offset
limit (section 4.4b). -/
def MAX_ARR32_SIZE : Nat := 2 ^ 31 - 1

/-- Translation of one end-offset word of a STR32 source into the target
width w, shifting by the current byte cursor (rbind.cc lines 575-581):
in C++ this is static_cast of the word plus curr_offset, plus delta_na
when widening an NA-tagged word. -/
def translate32 (w cur e : Nat) : Nat :=
  (e + cur + (if w = 64 ∧ offNA 32 e then deltaNA else 0)) % 2 ^ w

/-- Translation of one end-offset word of a STR64 source into the target
width w (rbind.cc lines 582-589): static_cast of the word plus
curr_offset, minus (in modular arithmetic) the truncated delta_na when
narrowing an NA-tagged word. -/
def translate64 (w cur e : Nat) : Nat :=
  ((e % 2 ^ w) + cur + (2 ^ w - (if w = 32 ∧ offNA 64 e then deltaNA % 2 ^ w else 0))) % 2 ^ w

/-- The block of target-width end-offset words produced from one appended
string column, given the byte cursor at the start of the block. -/
def translateBlock (w : Nat) (c : Column) (cur : Nat) : List Nat :=
  if c.stype = .str32 then
    (List.range c.nrows).map (fun j => translate32 w cur (c.strOffs.getD j 0))
  else
    (List.range c.nrows).map (fun j => translate64 w cur (c.strOffs.getD j 0))

/-- Cast step of the string appender size loop (rbind.cc lines 531-536):
non-VOID columns that are not strings are cast to the target string type. -/
def strNormalize (st : SType) (c : Column) : Column :=
  if c.stype = .void then c
  else if c.stype.ltype = .ltstring then c
  else castColumn c st

/-- The merged string-data byte size new_strbuf_size (rbind.cc lines
525-537): existing bytes when the start is non-empty, plus the byte size
of every non-VOID appended column. -/
def strTotalBytes (selfSbuf : List Nat) (columns : List Column) (colEmpty : Bool) : Nat :=
  (if colEmpty then 0 else selfSbuf.length) +
    (columns.map (fun c => if c.stype = .void then 0 else c.strBuf.length)).sum

/-- The NA word written when flushing a pending NA run: the byte cursor
XOR the NA tag (rbind.cc lines 567 and 601). -/
def naFillVal (w cur : Nat) : Nat := cur ^^^ 2 ^ (w - 1)

/-- Main loop of dt::SentinelStr_ColumnImpl::rbind_impl (rbind.cc lines
562-604): VOID columns extend a pending NA run; string columns flush the
pending run (NA words at the current cursor), emit their translated
offset words, append their raw bytes at the cursor and advance it (in
target-width modular arithmetic); a trailing run is flushed at the end. -/
def strLoop (w : Nat) : List Column → List Nat → Nat → Nat → List Nat → List Nat × List Nat
  | [], offsAcc, pending, cur, buf =>
      (offsAcc ++ List.replicate pending (naFillVal w cur), buf)
  | c :: cs, offsAcc, pending, cur, buf =>
      if c.stype = .void then
        strLoop w cs offsAcc (pending + c.nrows) cur buf
      else
        strLoop w cs
          ((offsAcc ++ List.replicate pending (naFillVal w cur)) ++ translateBlock w c cur)
          0
          ((cur + c.strBuf.length % 2 ^ w) % 2 ^ w)
          (buf ++ c.strBuf)

/-- Result of the string appender: either the retry signal (new_stype set
to STR64) or the new offset words and byte buffer. -/
inductive StrRes where
  | needs64
  | built (offs : List Nat) (sbuf : List Nat)
deriving DecidableEq, Inhabited

/-- Model of dt::SentinelStr_ColumnImpl::rbind_impl (rbind.cc lines
519-604) at offset width w.  Sizes are computed first; at 32-bit width,
if the merged byte size or the row count exceeds the 32-bit limit the
function signals needs64 without touching any buffer.  Otherwise the
original offsets are kept (or, for an empty start, the original rows
become an initial pending NA run), the byte cursor starts at the
de-tagged last original offset, and the main loop runs. -/
def strRbindImpl (w : Nat) (self : Column) (columns : List Column)
    (newNrows : Nat) (colEmpty : Bool) : StrRes :=
  let cols := columns.map (strNormalize self.stype)
  let tot := strTotalBytes self.strBuf cols colEmpty
  if w = 32 ∧ (tot > MAX_ARR32_SIZE ∨ newNrows > MAX_ARR32_SIZE) then .needs64
  else
    let cur0 : Nat :=
      if colEmpty then 0
      else if self.nrows = 0 then 0
      else offVal w (self.strOffs.getD (self.nrows - 1) 0)
    let offs0 : List Nat := if colEmpty then [] else self.strOffs
    let pending0 : Nat := if colEmpty then self.nrows else 0
    let buf0 : List Nat := if colEmpty then [] else self.strBuf
    let p := strLoop w cols offs0 pending0 cur0 buf0
    .built p.1 p.2

/-- Main loop of dt::SentinelObj_ColumnImpl::rbind_impl (rbind.cc lines
686-698): VOID columns leave their row range at the null default; other
columns are cast to object and their values stored, missing values as the
null singleton. -/
def objLoop : List Column → List (Option Int) → List (Option Int)
  | [], acc => acc
  | c :: cs, acc =>
      if c.stype = .void then objLoop cs (acc ++ List.replicate c.nrows none)
      else objLoop cs (acc ++ (castColumn c .obj).objVals)

/-- Model of dt::SentinelObj_ColumnImpl::rbind_impl (rbind.cc lines
669-701). -/
def objRbindImpl (selfVals : List (Option Int)) (selfNrows : Nat)
    (columns : List Column) (colEmpty : Bool) : List (Option Int) :=
  objLoop columns (if colEmpty then List.replicate selfNrows none else selfVals)

/-- One invocation of the virtual rbind_impl, dispatched on the physical
representation of the (already type-adjusted) column: either the new
column, or the STR64 retry signal from the string appender. -/
inductive RbindStep where
  | retry64
  | done (c : Column)
deriving DecidableEq, Inhabited

/-- Dispatch to the representation-specific appender (the virtual call
newcol._get_mutable_impl()->rbind_impl at rbind.cc line 483).  The
VOID appender (rbind.cc lines 500-510) only updates the row count. -/
def rbindDispatch (c : Column) (columns : List Column) (newNrows : Nat)
    (colEmpty : Bool) : RbindStep :=
  match c.stype.ltype with
  | .ltvoid => .done ⟨c.stype, newNrows, .constNA⟩
  | .ltbool | .ltint | .ltreal =>
      .done ⟨c.stype, newNrows, .fw (fwRbindImpl c.stype c.fwVals c.nrows columns colEmpty)⟩
  | .ltstring =>
      match strRbindImpl (strWidth c.stype) c columns newNrows colEmpty with
      | .needs64 => .retry64
      | .built offs sbuf => .done ⟨c.stype, newNrows, .str offs sbuf⟩
  | .ltobj => .done ⟨c.stype, newNrows, .obj (objRbindImpl c.objVals c.nrows columns colEmpty)⟩

/-- Errors of the append pipeline (spec section 7). -/
inductive RbindError where
  | typeConflict (colType accType : SType)
  | schemaMismatch (n0 n1 : Nat)
  | unknownColumn (name : String)
  | keyedFrame
deriving DecidableEq, Inhabited

/-- The left-to-right common-type fold of Column::rbind (rbind.cc lines
451-462): on failure the error names the appended type and the
accumulated type. -/
def commonFold : SType → List SType → Except RbindError SType
  | acc, [] => .ok acc
  | acc, t :: ts =>
      match SType.common acc t with
      | none => .error (.typeConflict t acc)
      | some t2 => commonFold t2 ts

/-- Choice of the starting column of Column::rbind (rbind.cc lines
466-474): fresh NA column when the target was VOID, the target itself
when its type already matches, otherwise a cast of the target. -/
def newcolOf (t : Column) (newStype : SType) (colEmpty : Bool) : Column :=
  if colEmpty then naColumn t.nrows newStype
  else if t.stype = newStype then t
  else castColumn t newStype

/-- Model of Column::rbind (rbind.cc lines 445-492): compute the final
row count and common type, build the starting column, dispatch to the
matching appender, and on the STR64 retry signal cast to the 64-bit
string type and re-invoke the appender once. -/
def Column.rbind (t : Column) (columns : List Column) : Except RbindError Column :=
  let colEmpty : Bool := decide (t.stype = .void)
  let newNrows := t.nrows + (columns.map Column.nrows).sum
  match commonFold t.stype (columns.map Column.stype) with
  | .error e => .error e
  | .ok newStype =>
      let nc := newcolOf t newStype colEmpty
      match rbindDispatch nc columns newNrows colEmpty with
      | .done c => .ok c
      | .retry64 =>
          let nc2 := castColumn nc .str64
          match rbindDispatch nc2 columns newNrows colEmpty with
          | .done c => .ok c
          | .retry64 => .ok nc2

/-- A table: column names, shared row count, number of key columns, and
the columns (spec section 3). -/
structure DataTable where
  names : List String
  nrows : Nat
  nkeys : Nat
  columns : List Column
deriving DecidableEq, Inhabited

/-- Number of columns. -/
def DataTable.ncols (dt : DataTable) : Nat := dt.columns.length

/-- Model of DataTable::rbind (rbind.cc lines 405-436): extend the column
list to the final width with VOID NA columns, compute the merged row
count, and for every final column build the per-source append list (the
mapped source column, or a fresh VOID NA column of that source row count
when the matrix entry is absent) and run Column::rbind. -/
def DataTable.rbind (dt : DataTable) (dts : List DataTable)
    (colIndices : List (List (Option Nat))) : Except RbindError DataTable :=
  let newNcols := colIndices.length
  let cols1 := dt.columns ++ List.replicate (newNcols - dt.ncols) (naColumn dt.nrows .void)
  let newNrows := dt.nrows + (dts.map DataTable.nrows).sum
  match (List.range newNcols).mapM (fun i =>
      Column.rbind (cols1.getD i (naColumn dt.nrows .void))
        ((List.range dts.length).map (fun j =>
          match (colIndices.getD i []).getD j none with
          | none => naColumn ((dts.getD j default).nrows) .void
          | some k => (dts.getD j default).columns.getD k (naColumn 0 .void)))) with
  | .error e => .error e
  | .ok newCols =>
      .ok { names := dt.names, nrows := newNrows, nkeys := dt.nkeys, columns := newCols }

/-- The ColumnIndexMatrix: entry (final column, source table) is the
source column position or absent (INVALID_INDEX in the C++ source). -/
abbrev IndexMatrix := List (List (Option Nat))

/-- The assignment cols(r)(i) := v of the planner. -/
def setMat (m : IndexMatrix) (r i v : Nat) : IndexMatrix :=
  m.set r ((m.getD r []).set i (some v))

/-- State of the by-name planner: the (possibly growing) final name list,
the name-to-position map inames, and the index matrix.  The C++ invariant
final_names.size() == n (asserted at rbind.cc line 207) lets the model
use the length of names for n. -/
structure PlanState where
  names : List String
  inames : List (String × Nat)
  cols : IndexMatrix
deriving DecidableEq, Inhabited

/-- The name-to-position map over the initial final schema (rbind.cc lines
184-188).  Later occurrences of a duplicated name overwrite earlier ones,
which the list encoding realizes by placing later pairs in front. -/
def buildINames : List String → Nat → List (String × Nat)
  | [], _ => []
  | nm :: rest, i => buildINames rest (i + 1) ++ [(nm, i)]

/-- Inner loop of the by-name planner over the columns of source i
(rbind.cc lines 193-215): exact name at the same position first, then the
general name lookup, then (with force) growth of the final schema, else
the unknown-column error. -/
def bnCols (ndts i : Nat) (force : Bool) :
    List String → Nat → PlanState → Except RbindError PlanState
  | [], _, st => .ok st
  | name :: rest, j, st =>
      if st.names.get? j = some name then
        bnCols ndts i force rest (j + 1) { st with cols := setMat st.cols j i j }
      else
        match st.inames.lookup name with
        | some p => bnCols ndts i force rest (j + 1) { st with cols := setMat st.cols p i j }
        | none =>
            if force then
              bnCols ndts i force rest (j + 1)
                { names := st.names ++ [name],
                  inames := (name, st.names.length) :: st.inames,
                  cols := setMat (st.cols ++ [List.replicate ndts none]) st.names.length i j }
            else .error (.unknownColumn name)

/-- Outer loop of the by-name planner over the sources (rbind.cc lines
190-217), with the column-count check of _check_ncols when force is
false. -/
def bnTables (ndts : Nat) (force : Bool) :
    List DataTable → Nat → PlanState → Except RbindError PlanState
  | [], _, st => .ok st
  | df :: dfs, i, st =>
      if force = false ∧ st.names.length ≠ df.ncols then
        .error (.schemaMismatch st.names.length df.ncols)
      else
        match bnCols ndts i force df.names 0 st with
        | .error e => .error e
        | .ok st2 => bnTables ndts force dfs (i + 1) st2

/-- The by-name planner on a seeded schema. -/
def bnPlan (names0 : List String) (dts : List DataTable) (force : Bool) :
    Except RbindError PlanState :=
  bnTables dts.length force dts 0
    ⟨names0, buildINames names0 0,
      List.replicate names0.length (List.replicate dts.length none)⟩

/-- Variant of the inner by-name loop following the spec words (section
4.1, tie-break policy): the exact-name-at-same-position fast path is
removed and every column goes through the general name lookup.  Written
for the refinement claim comparing it with bnCols. -/
def bnColsG (ndts i : Nat) (force : Bool) :
    List String → Nat → PlanState → Except RbindError PlanState
  | [], _, st => .ok st
  | name :: rest, j, st =>
      match st.inames.lookup name with
      | some p => bnColsG ndts i force rest (j + 1) { st with cols := setMat st.cols p i j }
      | none =>
          if force then
            bnColsG ndts i force rest (j + 1)
              { names := st.names ++ [name],
                inames := (name, st.names.length) :: st.inames,
                cols := setMat (st.cols ++ [List.replicate ndts none]) st.names.length i j }
          else .error (.unknownColumn name)

/-- Outer loop of the general-lookup-only by-name planner. -/
def bnTablesG (ndts : Nat) (force : Bool) :
    List DataTable → Nat → PlanState → Except RbindError PlanState
  | [], _, st => .ok st
  | df :: dfs, i, st =>
      if force = false ∧ st.names.length ≠ df.ncols then
        .error (.schemaMismatch st.names.length df.ncols)
      else
        match bnColsG ndts i force df.names 0 st with
        | .error e => .error e
        | .ok st2 => bnTablesG ndts force dfs (i + 1) st2

/-- The general-lookup-only by-name planner on a seeded schema. -/
def bnPlanG (names0 : List String) (dts : List DataTable) (force : Bool) :
    Except RbindError PlanState :=
  bnTablesG dts.length force dts 0
    ⟨names0, buildINames names0 0,
      List.replicate names0.length (List.replicate dts.length none)⟩

/-- State of the positional planner. -/
structure PosState where
  names : List String
  cols : IndexMatrix
deriving DecidableEq, Inhabited

/-- The positional planner (rbind.cc lines 221-240): per source, a
column-count mismatch needs force; excess columns of a wider source extend
the final schema with that source names; every column is recorded at its
own ordinal position. -/
def posTables (ndts : Nat) (force : Bool) :
    List DataTable → Nat → PosState → Except RbindError PosState
  | [], _, st => .ok st
  | df :: dfs, i, st =>
      let n := st.names.length
      if n ≠ df.ncols ∧ force = false then
        .error (.schemaMismatch n df.ncols)
      else
        let st1 : PosState :=
          if n < df.ncols then
            { names := st.names ++ (List.range (df.ncols - n)).map (fun k => df.names.getD (n + k) ""),
              cols := st.cols ++ List.replicate (df.ncols - n) (List.replicate ndts none) }
          else st
        posTables ndts force dfs (i + 1)
          { st1 with cols := (List.range df.ncols).foldl (fun m j => setMat m j i j) st1.cols }

/-- The positional planner on a seeded schema. -/
def posPlan (names0 : List String) (dts : List DataTable) (force : Bool) :
    Except RbindError PosState :=
  posTables dts.length force dts 0
    ⟨names0, List.replicate names0.length (List.replicate dts.length none)⟩

/-- Model of py::Frame::rbind (rbind.cc lines 116-245) with the sources
given directly as a list of tables (the Python argument flattening is an
external surface).  Zero-row sources are dropped; an empty remainder is a
no-op; a keyed target is rejected; a zero-column target seeds the final
schema from the first source; then the by-name or positional planner runs
and its matrix is committed through DataTable::rbind and set_names. -/
def Frame.rbind (dt : DataTable) (sources : List DataTable)
    (force bynames : Bool) : Except RbindError DataTable :=
  let dts := sources.filter (fun s => decide (s.nrows ≠ 0))
  if dts.isEmpty then .ok dt
  else if dt.nkeys > 0 then .error .keyedFrame
  else
    let names0 := if dt.ncols = 0 then (dts.headD default).names else dt.names
    let plan : Except RbindError (List String × IndexMatrix) :=
      if bynames then
        match bnPlan names0 dts force with
        | .error e => .error e
        | .ok st => .ok (st.names, st.cols)
      else
        match posPlan names0 dts force with
        | .error e => .error e
        | .ok st => .ok (st.names, st.cols)
    match plan with
    | .error e => .error e
    | .ok pr =>
        match DataTable.rbind dt dts pr.2 with
        | .error e => .error e
        | .ok r => .ok { r with names := pr.1 }

/-- Invariant of the by-name planner state: the final names are unique and
the inames map is exactly the name-to-position map of the final names. -/
def INamesInv (st : PlanState) : Prop :=
  st.names.Nodup ∧
  ∀ (s : String) (k : Nat), st.inames.lookup s = some k ↔ st.names.get? k = some s

/-- The initial final schema: the names of the target, or of the first
remaining source when the target has zero columns (rbind.cc lines 166-171). -/
def seedNames (dt : DataTable) (dts : List DataTable) : List String :=
  if dt.ncols = 0 then (dts.headD default).names else dt.names

/-- Start offset of row i: zero for the first row, otherwise the de-tagged
end offset of the previous row (spec sections 3 and the glossary). -/
def strStart (w : Nat) (offs : List Nat) (i : Nat) : Nat :=
  match i with
  | 0 => 0
  | j + 1 => offVal w (offs.getD j 0)

/-- Decode row i of a string column: the missing marker when the end
offset carries the NA tag, otherwise the byte slice from the start offset
to the de-tagged end offset. -/
def strAt (w : Nat) (offs sbuf : List Nat) (i : Nat) : Option (List Nat) :=
  let e := offs.getD i 0
  if offNA w e then none
  else some ((sbuf.drop (strStart w offs i)).take (offVal w e - strStart w offs i))

/-- Logical string value of an appended column at a row: VOID columns are
all-missing, string columns decode at their own width. -/
def colStrValue (c : Column) (i : Nat) : Option (List Nat) :=
  if c.stype = .void then none
  else strAt (strWidth c.stype) c.strOffs c.strBuf i

/-- Value supplied at relative row r by an ordered list of appended
columns: the column whose row range contains r supplies it. -/
def blockValue : List Column → Nat → Option (List Nat)
  | [], _ => none
  | c :: cs, r => if r < c.nrows then colStrValue c r else blockValue cs (r - c.nrows)

/-- Total row count of a list of columns. -/
def sumNrows (cols : List Column) : Nat := (cols.map Column.nrows).sum

/-- Total string bytes contributed by a list of appended columns (VOID
columns contribute none), as summed by the string appender size loop. -/
def strBytes (cols : List Column) : Nat :=
  (cols.map (fun c => if c.stype = .void then 0 else c.strBuf.length)).sum

/-- De-tagged value of the last offset word of a list (0 when empty); this
is the byte cursor position after those rows. -/
def lastVal (w : Nat) (l : List Nat) : Nat :=
  if l = [] then 0 else offVal w (l.getD (l.length - 1) 0)

/-- The value the merged string column is expected to decode to at row r:
original rows keep the original value (or are all-missing when the start
was empty), appended rows take the value of whichever source block covers
them. -/
def strExpected (w : Nat) (self : Column) (colEmpty : Bool) (cols : List Column)
    (r : Nat) : Option (List Nat) :=
  if r < self.nrows then
    (if colEmpty then none else strAt w self.strOffs self.strBuf r)
  else blockValue cols (r - self.nrows)

/-- The slot block contributed by one appended column in the fixed-width
appender: an all-NA run for VOID columns, the (cast) payload otherwise. -/
def fwBlocks (st : SType) : List Column → List (Option Int)
  | [] => []
  | c :: cs =>
      (if c.stype = .void then List.replicate c.nrows (none : Option Int)
       else (fwNormalize st c).fwVals) ++ fwBlocks st cs

/-- Well-formedness of a string payload at width w (spec section 3):
every offset word fits the width; every de-tagged offset points into the
byte buffer; an NA-tagged offset has the magnitude of the previous end
offset; the last end offset delimits exactly the byte buffer; a zero-row
column has no bytes. -/
def StrColWF (w : Nat) (offs sbuf : List Nat) : Prop :=
  (∀ e ∈ offs, e < 2 ^ w) ∧
  (∀ e ∈ offs, offVal w e ≤ sbuf.length) ∧
  (∀ i, i < offs.length → offNA w (offs.getD i 0) = true →
      offVal w (offs.getD i 0) = strStart w offs i) ∧
  (offs ≠ [] → offVal w (offs.getD (offs.length - 1) 0) = sbuf.length) ∧
  (offs = [] → sbuf = [])

/-- Well-formedness of one appended column for the string appender: VOID,
or a string column of either width whose offsets cover its rows and whose
payload is well formed. -/
def StrSrcWF (c : Column) : Prop :=
  c.stype = .void ∨
  ((c.stype = .str32 ∨ c.stype = .str64) ∧
    c.strOffs.length = c.nrows ∧
    StrColWF (strWidth c.stype) c.strOffs c.strBuf)

/-- Well-formedness of a fixed-width appended column: VOID, or a
fixed-width payload covering its rows. -/
def FwSrcWF (c : Column) : Prop :=
  c.stype = .void ∨ (∃ vals, c.impl = .fw vals ∧ vals.length = c.nrows)

/-- Concrete table: the Weight/Height target of the spec examples. -/
def exDT1 : DataTable :=
  ⟨["Weight", "Height"], 3, 0,
    [⟨.int32, 3, .fw [some 5, some 4, some 6]⟩,
     ⟨.int32, 3, .fw [some 170, some 172, some 180]⟩]⟩

/-- Concrete table: the Height/Weight source of the spec examples. -/
def exDT2 : DataTable :=
  ⟨["Height", "Weight"], 3, 0,
    [⟨.int32, 3, .fw [some 180, some 181, some 169]⟩,
     ⟨.int32, 3, .fw [some 4, some 4, some 5]⟩]⟩

/-- Concrete table: the by-name merge of exDT1 and exDT2. -/
def exDT12 : DataTable :=
  ⟨["Weight", "Height"], 6, 0,
    [⟨.int32, 6, .fw [some 5, some 4, some 6, some 4, some 4, some 5]⟩,
     ⟨.int32, 6, .fw [some 170, some 172, some 180, some 180, some 181, some 169]⟩]⟩

/-- Concrete table: the Height/Weight/Age source of the spec force example. -/
def exDT3 : DataTable :=
  ⟨["Height", "Weight", "Age"], 3, 0,
    [⟨.int32, 3, .fw [some 180, some 181, some 169]⟩,
     ⟨.int32, 3, .fw [some 4, some 4, some 5]⟩,
     ⟨.int32, 3, .fw [some 25, some 50, some 67]⟩]⟩

/-- Concrete table: a one-row keyed table. -/
def exKeyed : DataTable := ⟨["a"], 1, 1, [⟨.int32, 1, .fw [some 1]⟩]⟩

/-- Concrete table: a zero-row table with one column. -/
def exZero : DataTable := ⟨["a"], 0, 0, [⟨.int32, 0, .fw []⟩]⟩

/-- Concrete table: the empty table with no columns and no rows. -/
def exEmpty : DataTable := ⟨[], 0, 0, []⟩

/-- Concrete column: a one-row boolean column. -/
def exBool8 : Column := ⟨.bool8, 1, .fw [some 1]⟩

/-- Concrete column: a one-row int32 column. -/
def exInt32 : Column := ⟨.int32, 1, .fw [some 7]⟩

/-- Concrete column: a one-row 32-bit string column holding "A". -/
def exStr32 : Column := ⟨.str32, 1, .str [1] [65]⟩

/-- Concrete column: a two-row 64-bit string column holding "x" and "yz". -/
def exStr64 : Column := ⟨.str64, 2, .str [1, 3] [120, 121, 122]⟩

/-- Concrete column: a 32-bit string column whose claimed row count exceeds
the 32-bit offset limit, driving the width-overflow retry. -/
def exHuge : Column := ⟨.str32, 2 ^ 31, .str [] []⟩

/-- Decidable equality on Except results, used to evaluate the model on
concrete tables. -/
instance exceptDecEq {ε α : Type} [DecidableEq ε] [DecidableEq α] :
    DecidableEq (Except ε α) := fun a b =>
  match a, b with
  | .error e1, .error e2 =>
      if h : e1 = e2 then isTrue (congrArg _ h)
      else isFalse (fun hc => h (Except.error.inj hc))
  | .ok v1, .ok v2 =>
      if h : v1 = v2 then isTrue (congrArg _ h)
      else isFalse (fun hc => h (Except.ok.inj hc))
  | .error _, .ok _ => isFalse (fun hc => Except.noConfusion hc)
  | .ok _, .error _ => isFalse (fun hc => Except.noConfusion hc)

/-- Decidability of string-payload well-formedness, for concrete evaluation. -/
instance strColWF_dec (w : Nat) (offs sbuf : List Nat) : Decidable (StrColWF w offs sbuf) := by
  unfold StrColWF; infer_instance

/-- Decidability of appended-column well-formedness, for concrete evaluation. -/
instance strSrcWF_dec (c : Column) : Decidable (StrSrcWF c) := by
  unfold StrSrcWF; infer_instance

theorem filter_nrows_nil {srcs : List DataTable}
    (h : ∀ s ∈ srcs, s.nrows = 0) :
    srcs.filter (fun s => decide (s.nrows ≠ 0)) = [] := by
  rw [List.filter_eq_nil_iff]
  intro a ha
  simp [h a ha]

theorem dtRbind_nrows {dt : DataTable} {dts : List DataTable}
    {ci : IndexMatrix} {r : DataTable} (h : DataTable.rbind dt dts ci = .ok r) :
    r.nrows = dt.nrows + (dts.map DataTable.nrows).sum := by
  unfold DataTable.rbind at h
  dsimp only at h
  split at h
  · simp at h
  · cases h; rfl

/-- Claim C1: for every target table and source list, after dropping all
zero-row sources, a successful append produces a target whose row count is
the original row count plus the sum of the row counts of the remaining
sources. -/
theorem C1_result_row_count (dt : DataTable) (srcs : List DataTable)
    (f bn : Bool) (r : DataTable) (h : Frame.rbind dt srcs f bn = .ok r) :
    r.nrows = dt.nrows +
      ((srcs.filter (fun s => decide (s.nrows ≠ 0))).map DataTable.nrows).sum := by
  unfold Frame.rbind at h
  by_cases he : (srcs.filter (fun s => decide (s.nrows ≠ 0))).isEmpty
  · rw [if_pos he] at h
    cases h
    have h0 : srcs.filter (fun s => decide (s.nrows ≠ 0)) = [] := by
      simpa [List.isEmpty_iff] using he
    rw [h0]
    simp
  · rw [if_neg he] at h
    split at h
    · simp at h
    · dsimp only at h
      split at h
      · simp at h
      · split at h
        · simp at h
        · rename_i r2 heq
          cases h
          simpa using dtRbind_nrows heq

theorem C1_witness :
    Frame.rbind exDT1 [exDT2] false true = .ok exDT12 ∧
    exDT12.nrows = exDT1.nrows +
      (([exDT2].filter (fun s => decide (s.nrows ≠ 0))).map DataTable.nrows).sum :=
  ⟨by decide, C1_result_row_count exDT1 [exDT2] false true exDT12 (by decide)⟩

/-- Claim C7 (counterexample): a keyed target with a single zero-row source
returns successfully instead of raising KeyedFrame, because the empty-source
early return (rbind.cc line 161) runs before the keyed check (line 162). -/
theorem C7_counterexample :
    exKeyed.nkeys = 1 ∧
    Frame.rbind exKeyed [exZero] false true = .ok exKeyed := by
  constructor
  · rfl
  · decide

/-- Claim C7 (amended): KeyedFrame is raised, before any mutation, whenever
the target has at least one key column and the source list is still
non-empty after dropping zero-row sources; the check follows only the
zero-row filtering.  (In this embedding an error return leaves no result
table at all, mirroring that the check precedes any mutation.) -/
theorem C7_keyed_error_after_filter (dt : DataTable) (srcs : List DataTable)
    (f bn : Bool) (hk : 0 < dt.nkeys)
    (hne : srcs.filter (fun s => decide (s.nrows ≠ 0)) ≠ []) :
    Frame.rbind dt srcs f bn = .error .keyedFrame := by
  unfold Frame.rbind
  have h1 : ¬ ((srcs.filter (fun s => decide (s.nrows ≠ 0))).isEmpty = true) := by
    simpa [List.isEmpty_iff] using hne
  dsimp only
  rw [if_neg h1, if_pos hk]

theorem C7_witness :
    0 < exKeyed.nkeys ∧
    [exDT2].filter (fun s => decide (s.nrows ≠ 0)) ≠ [] ∧
    Frame.rbind exKeyed [exDT2] false true = .error .keyedFrame :=
  ⟨by decide, by decide,
    C7_keyed_error_after_filter exKeyed [exDT2] false true (by decide) (by decide)⟩

/-- Claim C8: zero-row source tables are silently skipped (the call on a
list with a zero-row source equals the call on the list without it, so
they contribute no rows and no schema obligation), and when the source
list is empty after this filtering the call is a no-op returning the
target completely unchanged. -/
theorem C8_zero_row_skip_noop :
    (∀ (dt : DataTable) (srcs : List DataTable) (f bn : Bool),
        (∀ s ∈ srcs, s.nrows = 0) → Frame.rbind dt srcs f bn = .ok dt) ∧
    (∀ (dt s : DataTable) (rest : List DataTable) (f bn : Bool),
        s.nrows = 0 → Frame.rbind dt (s :: rest) f bn = Frame.rbind dt rest f bn) := by
  constructor
  · intro dt srcs f bn h
    have h0 := filter_nrows_nil h
    unfold Frame.rbind
    dsimp only
    rw [h0]
    simp
  · intro dt s rest f bn h
    have hf : (s :: rest).filter (fun x => decide (x.nrows ≠ 0))
        = rest.filter (fun x => decide (x.nrows ≠ 0)) := by
      rw [List.filter_cons, if_neg (by simp [h])]
    unfold Frame.rbind
    dsimp only
    rw [hf]

theorem naColumn_stype (n : Nat) (st : SType) : (naColumn n st).stype = st := by
  cases st <;> rfl

theorem castColumn_stype (c : Column) (st : SType) : (castColumn c st).stype = st := by
  rcases c with ⟨s, n, impl⟩
  cases impl <;> cases st <;> rfl

theorem newcolOf_stype (t : Column) (st : SType) (ce : Bool) :
    (newcolOf t st ce).stype = st := by
  unfold newcolOf
  split
  · exact naColumn_stype _ _
  · split
    · assumption
    · exact castColumn_stype _ _

theorem strRbindImpl_needs64_iff (w : Nat) (self : Column) (cols : List Column)
    (nn : Nat) (ce : Bool) :
    strRbindImpl w self cols nn ce = .needs64 ↔
      (w = 32 ∧ (strTotalBytes self.strBuf (cols.map (strNormalize self.stype)) ce > MAX_ARR32_SIZE ∨
                 nn > MAX_ARR32_SIZE)) := by
  unfold strRbindImpl
  dsimp only
  split
  · rename_i hcond
    simp [hcond]
  · rename_i hcond
    simp [hcond]

theorem strRbindImpl_64_built (self : Column) (cols : List Column) (nn : Nat) (ce : Bool) :
    ∃ o b, strRbindImpl 64 self cols nn ce = .built o b := by
  unfold strRbindImpl
  dsimp only
  rw [if_neg (by simp)]
  exact ⟨_, _, rfl⟩

theorem rbindDispatch_done_stype {c : Column} {cols : List Column} {nn : Nat}
    {ce : Bool} {d : Column}
    (h : rbindDispatch c cols nn ce = .done d) : d.stype = c.stype ∧ d.nrows = nn := by
  unfold rbindDispatch at h
  cases hlt : c.stype.ltype <;> rw [hlt] at h <;> dsimp only at h
  case ltvoid => cases h; exact ⟨rfl, rfl⟩
  case ltbool => cases h; exact ⟨rfl, rfl⟩
  case ltint => cases h; exact ⟨rfl, rfl⟩
  case ltreal => cases h; exact ⟨rfl, rfl⟩
  case ltstring =>
    split at h
    · cases h
    · cases h; exact ⟨rfl, rfl⟩
  case ltobj => cases h; exact ⟨rfl, rfl⟩

theorem rbindDispatch_retry_str {c : Column} {cols : List Column} {nn : Nat} {ce : Bool}
    (h : rbindDispatch c cols nn ce = .retry64) :
    c.stype = .str32 ∧ strRbindImpl 32 c cols nn ce = .needs64 := by
  unfold rbindDispatch at h
  cases hlt : c.stype.ltype <;> rw [hlt] at h <;> dsimp only at h <;> try exact absurd h (by simp)
  split at h
  · rename_i hsig
    have h32 : strWidth c.stype = 32 := ((strRbindImpl_needs64_iff _ _ _ _ _).mp hsig).1
    have hst : c.stype = .str32 := by
      cases hs : c.stype <;> rw [hs] at hlt <;> simp [SType.ltype] at hlt <;>
        first
          | rfl
          | (rw [hs] at h32; simp [strWidth] at h32)
    refine ⟨hst, ?_⟩
    rw [hst] at hsig
    simpa [strWidth] using hsig
  · exact absurd h (by simp)

theorem commonFold_error_conflict (a : SType) (ts : List SType) (e : RbindError)
    (h : commonFold a ts = .error e) :
    ∃ x y, e = .typeConflict x y ∧ SType.common y x = none := by
  induction ts generalizing a with
  | nil => simp [commonFold] at h
  | cons t ts ih =>
      unfold commonFold at h
      cases hc : SType.common a t with
      | none => rw [hc] at h; cases h; exact ⟨t, a, rfl, hc⟩
      | some t2 => rw [hc] at h; exact ih t2 h

theorem etype_string {st : SType} (h : st.ltype = .ltstring) : st.etype = .estring := by
  cases st <;> simp [SType.ltype] at h <;> rfl

/-- Claim C5: the result element type of a column append is the pairwise
common type of the target type and every appended type, computed left to
right over the promotion lattice (which contains bool8+int32 = int32 and
int32+float64 = float64, and has no entry for string+int32); whenever some
pairing has no common type the call raises TypeConflict carrying both types
of the failing pairing.  The result type is compared at element-type
granularity because the width-overflow retry can legitimately widen the
string storage from 32-bit to 64-bit offsets (spec section 4.4b) while the
element type stays string. -/
theorem C5_result_type :
    (∀ (t : Column) (cols : List Column) (st : SType),
        commonFold t.stype (cols.map Column.stype) = .ok st →
        ∃ c, Column.rbind t cols = .ok c ∧ c.stype.etype = st.etype) ∧
    (∀ (t : Column) (cols : List Column) (e : RbindError),
        commonFold t.stype (cols.map Column.stype) = .error e →
        Column.rbind t cols = .error e) ∧
    (∀ (a : SType) (ts : List SType) (e : RbindError),
        commonFold a ts = .error e →
        ∃ x y, e = .typeConflict x y ∧ SType.common y x = none) ∧
    SType.common .bool8 .int32 = some .int32 ∧
    SType.common .int32 .float64 = some .float64 ∧
    SType.common .str32 .int32 = none := by
  refine ⟨?_, ?_, commonFold_error_conflict, by decide, by decide, by decide⟩
  · intro t cols st h
    unfold Column.rbind
    rw [h]
    dsimp only
    cases hd : rbindDispatch (newcolOf t st (decide (t.stype = .void))) cols
        (t.nrows + (cols.map Column.nrows).sum) (decide (t.stype = .void)) with
    | done c =>
        refine ⟨c, rfl, ?_⟩
        rw [(rbindDispatch_done_stype hd).1, newcolOf_stype]
    | retry64 =>
        have hstr := rbindDispatch_retry_str hd
        have hst32 : st = .str32 := by
          rw [← newcolOf_stype t st (decide (t.stype = .void))]
          exact hstr.1.symm ▸ rfl
        cases hd2 : rbindDispatch (castColumn (newcolOf t st (decide (t.stype = .void))) .str64)
            cols (t.nrows + (cols.map Column.nrows).sum) (decide (t.stype = .void)) with
        | done c2 =>
            refine ⟨c2, rfl, ?_⟩
            rw [(rbindDispatch_done_stype hd2).1, castColumn_stype, hst32]
            rfl
        | retry64 =>
            refine ⟨_, rfl, ?_⟩
            rw [castColumn_stype, hst32]
            rfl
  · intro t cols e h
    unfold Column.rbind
    rw [h]

theorem C5_witness :
    commonFold exBool8.stype ([exInt32].map Column.stype) = .ok .int32 ∧
    ∃ c, Column.rbind exBool8 [exInt32] = .ok c ∧ c.stype.etype = SType.etype .int32 :=
  ⟨by decide, C5_result_type.1 exBool8 [exInt32] .int32 (by decide)⟩

/-- Claim C3: the string appender computes the merged byte size and works
out the final row count before touching any buffer; at 32-bit offset width
it signals "need 64-bit width" exactly when the merged byte size or the
final row count exceeds the 32-bit limit, performing no mutation (the
signal carries no buffers at all); Column::rbind then re-casts the new
column to the 64-bit string type and re-invokes the appender, and the
64-bit invocation can never signal retry again. -/
theorem C3_width_overflow_retry :
    (∀ (self : Column) (cols : List Column) (nn : Nat) (ce : Bool),
        strRbindImpl 32 self cols nn ce = .needs64 ↔
          (strTotalBytes self.strBuf (cols.map (strNormalize self.stype)) ce > MAX_ARR32_SIZE ∨
           nn > MAX_ARR32_SIZE)) ∧
    (∀ (self : Column) (cols : List Column) (nn : Nat) (ce : Bool),
        ∃ o b, strRbindImpl 64 self cols nn ce = .built o b) ∧
    (∀ (t : Column) (cols : List Column) (st : SType),
        commonFold t.stype (cols.map Column.stype) = .ok st →
        rbindDispatch (newcolOf t st (decide (t.stype = .void))) cols
            (t.nrows + (cols.map Column.nrows).sum) (decide (t.stype = .void)) = .retry64 →
        ∃ o b,
          rbindDispatch (castColumn (newcolOf t st (decide (t.stype = .void))) .str64) cols
              (t.nrows + (cols.map Column.nrows).sum) (decide (t.stype = .void))
            = .done ⟨.str64, t.nrows + (cols.map Column.nrows).sum, .str o b⟩ ∧
          Column.rbind t cols
            = .ok ⟨.str64, t.nrows + (cols.map Column.nrows).sum, .str o b⟩) := by
  refine ⟨fun self cols nn ce => by simpa using strRbindImpl_needs64_iff 32 self cols nn ce,
          strRbindImpl_64_built, ?_⟩
  intro t cols st hfold hretry
  obtain ⟨o, b, hbuilt⟩ :=
    strRbindImpl_64_built (castColumn (newcolOf t st (decide (t.stype = .void))) .str64)
      cols (t.nrows + (cols.map Column.nrows).sum) (decide (t.stype = .void))
  have hd2 : rbindDispatch (castColumn (newcolOf t st (decide (t.stype = .void))) .str64) cols
      (t.nrows + (cols.map Column.nrows).sum) (decide (t.stype = .void))
      = .done ⟨.str64, t.nrows + (cols.map Column.nrows).sum, .str o b⟩ := by
    unfold rbindDispatch
    rw [castColumn_stype]
    dsimp only [SType.ltype]
    rw [show strWidth .str64 = 64 from rfl, hbuilt]
  refine ⟨o, b, hd2, ?_⟩
  unfold Column.rbind
  rw [hfold]
  dsimp only
  rw [hretry, hd2]

theorem C3_witness :
    commonFold exHuge.stype ([exStr32].map Column.stype) = .ok .str32 ∧
    rbindDispatch (newcolOf exHuge .str32 (decide (exHuge.stype = .void))) [exStr32]
        (exHuge.nrows + ([exStr32].map Column.nrows).sum)
        (decide (exHuge.stype = .void)) = .retry64 ∧
    ∃ o b,
      rbindDispatch (castColumn (newcolOf exHuge .str32 (decide (exHuge.stype = .void))) .str64)
          [exStr32] (exHuge.nrows + ([exStr32].map Column.nrows).sum)
          (decide (exHuge.stype = .void))
        = .done ⟨.str64, exHuge.nrows + ([exStr32].map Column.nrows).sum, .str o b⟩ ∧
      Column.rbind exHuge [exStr32]
        = .ok ⟨.str64, exHuge.nrows + ([exStr32].map Column.nrows).sum, .str o b⟩ :=
  ⟨by decide, by decide,
    C3_width_overflow_retry.2.2 exHuge [exStr32] .str32 (by decide) (by decide)⟩

theorem C8_witness :
    ((∀ s ∈ [exZero], s.nrows = 0) ∧
      Frame.rbind exDT1 [exZero] false true = .ok exDT1) ∧
    (exZero.nrows = 0 ∧
      Frame.rbind exDT1 [exZero, exDT2] false true = Frame.rbind exDT1 [exDT2] false true) :=
  ⟨⟨by decide, C8_zero_row_skip_noop.1 exDT1 [exZero] false true (by decide)⟩,
   ⟨by decide, C8_zero_row_skip_noop.2 exDT1 exZero [exDT2] false true (by decide)⟩⟩

theorem common_void_left (b : SType) : SType.common .void b = some b := by
  cases b <;> rfl

theorem mapM_ok {α β ε : Type} (l : List α) (f : α → Except ε β)
    (h : ∀ a ∈ l, ∃ b, f a = .ok b) : ∃ bs, l.mapM f = .ok bs := by
  induction l with
  | nil => exact ⟨[], rfl⟩
  | cons a l ih =>
      obtain ⟨b, hb⟩ := h a (List.mem_cons_self a l)
      obtain ⟨bs, hbs⟩ := ih (fun x hx => h x (List.mem_cons_of_mem _ hx))
      refine ⟨b :: bs, ?_⟩
      rw [List.mapM_cons, hb, hbs]
      rfl

theorem bnCols_aligned (ndts i : Nat) (force : Bool) :
    ∀ (rest : List String) (j : Nat) (st : PlanState),
      (∀ k, k < rest.length → st.names.get? (j + k) = rest.get? k) →
      ∃ cols2, bnCols ndts i force rest j st = .ok { st with cols := cols2 } := by
  intro rest
  induction rest with
  | nil => exact fun j st _ => ⟨st.cols, rfl⟩
  | cons name rest ih =>
      intro j st hal
      have h0 : st.names.get? j = some name := by
        have := hal 0 (by simp)
        simpa using this
      unfold bnCols
      rw [if_pos h0]
      have := ih (j + 1) { st with cols := setMat st.cols j i j }
        (fun k hk => by
          have := hal (k + 1) (by simpa using Nat.succ_lt_succ hk)
          simpa [Nat.add_assoc, Nat.add_comm 1 k] using this)
      simpa using this

theorem column_rbind_ok_of_fold {t : Column} {cols : List Column} {st : SType}
    (h : commonFold t.stype (cols.map Column.stype) = .ok st) :
    ∃ c, Column.rbind t cols = .ok c ∧ c.stype.etype = st.etype := by
  unfold Column.rbind
  rw [h]
  dsimp only
  cases hd : rbindDispatch (newcolOf t st (decide (t.stype = .void))) cols
      (t.nrows + (cols.map Column.nrows).sum) (decide (t.stype = .void)) with
  | done c =>
      refine ⟨c, rfl, ?_⟩
      rw [(rbindDispatch_done_stype hd).1, newcolOf_stype]
  | retry64 =>
      have hstr := rbindDispatch_retry_str hd
      have hst32 : st = .str32 := by
        rw [← newcolOf_stype t st (decide (t.stype = .void))]
        exact hstr.1.symm ▸ rfl
      cases hd2 : rbindDispatch (castColumn (newcolOf t st (decide (t.stype = .void))) .str64)
          cols (t.nrows + (cols.map Column.nrows).sum) (decide (t.stype = .void)) with
      | done c2 =>
          refine ⟨c2, rfl, ?_⟩
          rw [(rbindDispatch_done_stype hd2).1, castColumn_stype, hst32]
          rfl
      | retry64 =>
          refine ⟨_, rfl, ?_⟩
          rw [castColumn_stype, hst32]
          rfl

theorem column_rbind_void_single (t : Column) (cols : List Column)
    (ht : t.stype = .void) (hl : cols.length = 1) :
    ∃ c, Column.rbind t cols = .ok c := by
  match cols, hl with
  | [c0], _ =>
    have hf : commonFold t.stype ([c0].map Column.stype) = .ok c0.stype := by
      rw [ht]
      show commonFold .void [c0.stype] = .ok c0.stype
      unfold commonFold
      rw [common_void_left]
      rfl
    obtain ⟨c, hc, _⟩ := column_rbind_ok_of_fold hf
    exact ⟨c, hc⟩

theorem dtRbind_ok_of_cols (dt : DataTable) (dts : List DataTable) (ci : IndexMatrix)
    (h : ∀ i ∈ List.range ci.length, ∃ b,
        Column.rbind ((dt.columns ++ List.replicate (ci.length - dt.ncols)
            (naColumn dt.nrows .void)).getD i (naColumn dt.nrows .void))
          ((List.range dts.length).map (fun j =>
            match (ci.getD i []).getD j none with
            | none => naColumn ((dts.getD j default).nrows) .void
            | some k => (dts.getD j default).columns.getD k (naColumn 0 .void))) = .ok b) :
    ∃ r, DataTable.rbind dt dts ci = .ok r := by
  unfold DataTable.rbind
  dsimp only
  obtain ⟨bs, hbs⟩ := mapM_ok _ _ h
  rw [hbs]
  exact ⟨_, rfl⟩

theorem dtRbind_single_void_ok (dt src : DataTable) (ci : IndexMatrix)
    (h0 : dt.columns = []) : ∃ r, DataTable.rbind dt [src] ci = .ok r := by
  refine dtRbind_ok_of_cols dt [src] ci (fun i hi => ?_)
  have hlt : i < ci.length := List.mem_range.mp hi
  have hnc : dt.ncols = 0 := by simp [DataTable.ncols, h0]
  have htarget : ((dt.columns ++ List.replicate (ci.length - dt.ncols)
      (naColumn dt.nrows SType.void)).getD i (naColumn dt.nrows SType.void)).stype = .void := by
    rw [h0, hnc]
    simp only [List.nil_append, Nat.sub_zero]
    rw [List.getD_eq_getElem?_getD, List.getElem?_replicate, if_pos hlt]
    rfl
  exact column_rbind_void_single _ _ htarget (by simp)

/-- Claim C10: when the target table has zero columns the final schema is
seeded from the first (non-empty) source before any column-count check, in
both by-name and positional modes; consequently a single-source append to a
zero-column target with force = false always succeeds (never raises
SchemaMismatch on account of the first source), and the result carries the
first source's column names. -/
theorem C10_zero_column_seeding (dt src : DataTable) (bn : Bool)
    (h0 : dt.columns = []) (hk : dt.nkeys = 0)
    (hw : src.names.length = src.ncols) (hr : src.nrows ≠ 0) :
    ∃ r, Frame.rbind dt [src] false bn = .ok r ∧ r.names = src.names := by
  have hfil : [src].filter (fun s => decide (s.nrows ≠ 0)) = [src] := by
    simp [List.filter_cons, hr]
  have hnc : dt.ncols = 0 := by simp [DataTable.ncols, h0]
  unfold Frame.rbind
  dsimp only
  rw [hfil]
  rw [if_neg (by simp), if_neg (by simp [hk])]
  rw [if_pos hnc]
  dsimp only [List.headD]
  cases bn with
  | true =>
      rw [if_pos rfl]
      obtain ⟨cols2, hplan⟩ := bnCols_aligned 1 0 false src.names 0
        ⟨src.names, buildINames src.names 0,
          List.replicate src.names.length (List.replicate 1 none)⟩
        (fun k hk2 => by simp)
      have hbn : bnPlan src.names [src] false = .ok
          { names := src.names, inames := buildINames src.names 0, cols := cols2 } := by
        unfold bnPlan bnTables
        rw [if_neg (by simp [hw])]
        simp only [List.length_cons, List.length_nil] at hplan ⊢
        rw [hplan]
        rfl
      rw [hbn]
      dsimp only
      obtain ⟨r, hrr⟩ := dtRbind_single_void_ok dt src cols2 h0
      rw [hrr]
      exact ⟨_, rfl, rfl⟩
  | false =>
      rw [if_neg (by simp)]
      have hpos : posPlan src.names [src] false = .ok
          ⟨src.names, (List.range src.ncols).foldl (fun m j => setMat m j 0 j)
            (List.replicate src.names.length (List.replicate 1 none))⟩ := by
        unfold posPlan posTables
        rw [if_neg (by simp [hw])]
        rw [if_neg (by simp [hw])]
        rfl
      rw [hpos]
      dsimp only
      obtain ⟨r, hrr⟩ := dtRbind_single_void_ok dt src _ h0
      rw [hrr]
      exact ⟨_, rfl, rfl⟩

theorem C10_witness :
    exEmpty.columns = [] ∧ exEmpty.nkeys = 0 ∧
    exDT2.names.length = exDT2.ncols ∧ exDT2.nrows ≠ 0 ∧
    (∃ r, Frame.rbind exEmpty [exDT2] false true = .ok r ∧ r.names = exDT2.names) :=
  ⟨rfl, rfl, by decide, by decide,
    C10_zero_column_seeding exEmpty exDT2 true rfl rfl (by decide) (by decide)⟩

theorem lookup_append (nm : String) (l1 l2 : List (String × Nat)) :
    List.lookup nm (l1 ++ l2) = (List.lookup nm l1).or (List.lookup nm l2) := by
  induction l1 with
  | nil => simp [List.lookup]
  | cons p l1 ih =>
      rcases p with ⟨k, v⟩
      simp only [List.cons_append, List.lookup]
      cases hbe : nm == k
      · simpa using ih
      · simp

theorem buildINames_mem (names : List String) (i : Nat) (nm : String) :
    (List.lookup nm (buildINames names i)).isSome = true ↔ nm ∈ names := by
  induction names generalizing i with
  | nil => simp [buildINames, List.lookup]
  | cons a rest ih =>
      unfold buildINames
      rw [lookup_append]
      cases hl : List.lookup nm (buildINames rest (i + 1)) with
      | some v =>
          have : nm ∈ rest := (ih (i + 1)).mp (by simp [hl])
          simp [Option.or, this]
      | none =>
          have hnm : ¬ nm ∈ rest := fun hm => by
            have := (ih (i + 1)).mpr hm
            rw [hl] at this
            simp at this
          simp only [Option.or, List.lookup]
          cases hbe : nm == a
          · simp only [List.lookup]
            constructor
            · intro hcon; simp at hcon
            · intro hm
              rcases List.mem_cons.mp hm with h1 | h2
              · rw [h1] at hbe; simp at hbe
              · exact absurd h2 hnm
          · simp only [Option.isSome_some, true_iff]
            have : nm = a := by simpa using hbe
            simp [this]

theorem bnCols_false_ok (ndts i : Nat) (names0 : List String) :
    ∀ (dfnames : List String) (j : Nat) (cols : IndexMatrix),
      (∀ nm ∈ dfnames, nm ∈ names0) →
      ∃ cols2, bnCols ndts i false dfnames j ⟨names0, buildINames names0 0, cols⟩
        = .ok ⟨names0, buildINames names0 0, cols2⟩ := by
  intro dfnames
  induction dfnames with
  | nil => exact fun j cols _ => ⟨cols, rfl⟩
  | cons name rest ih =>
      intro j cols hmem
      have hname : name ∈ names0 := hmem name (List.mem_cons_self _ _)
      unfold bnCols
      by_cases hfp : (names0 : List String).get? j = some name
      · rw [if_pos hfp]
        exact ih (j + 1) _ (fun nm h => hmem nm (List.mem_cons_of_mem _ h))
      · rw [if_neg hfp]
        cases hl : List.lookup name (buildINames names0 0) with
        | none =>
            exfalso
            have := (buildINames_mem names0 0 name).mpr hname
            rw [hl] at this
            simp at this
        | some p =>
            exact ih (j + 1) _ (fun nm h => hmem nm (List.mem_cons_of_mem _ h))

theorem bnCols_false_err (ndts i : Nat) (names0 : List String) :
    ∀ (dfnames : List String) (j : Nat) (cols : IndexMatrix),
      (∃ nm ∈ dfnames, ¬ nm ∈ names0) →
      ∃ nm2, bnCols ndts i false dfnames j ⟨names0, buildINames names0 0, cols⟩
        = .error (.unknownColumn nm2) := by
  intro dfnames
  induction dfnames with
  | nil => rintro j cols ⟨nm, hmem, _⟩; simp at hmem
  | cons name rest ih =>
      rintro j cols ⟨nm, hmem, hnot⟩
      by_cases hbad : name ∈ names0
      · have hrest : ∃ nm ∈ rest, ¬ nm ∈ names0 := by
          rcases List.mem_cons.mp hmem with h1 | h2
          · exact absurd (h1 ▸ hbad) hnot
          · exact ⟨nm, h2, hnot⟩
        unfold bnCols
        by_cases hfp : (names0 : List String).get? j = some name
        · rw [if_pos hfp]
          exact ih (j + 1) _ hrest
        · rw [if_neg hfp]
          cases hl : List.lookup name (buildINames names0 0) with
          | none =>
              exfalso
              have := (buildINames_mem names0 0 name).mpr hbad
              rw [hl] at this
              simp at this
          | some p => exact ih (j + 1) _ hrest
      · unfold bnCols
        have hfp : ¬ ((names0 : List String).get? j = some name) := by
          intro hc
          exact hbad (List.get?_mem hc)
        rw [if_neg hfp]
        cases hl : List.lookup name (buildINames names0 0) with
        | none => exact ⟨name, rfl⟩
        | some p =>
            exfalso
            have := (buildINames_mem names0 0 name).mp (by simp [hl])
            exact hbad this

theorem bnTables_false_offense (names0 : List String) :
    ∀ (dts : List DataTable) (ndts i : Nat) (cols : IndexMatrix),
      (∃ df ∈ dts, df.ncols ≠ names0.length ∨ ∃ nm ∈ df.names, ¬ nm ∈ names0) →
      ∃ e, bnTables ndts false dts i ⟨names0, buildINames names0 0, cols⟩ = .error e ∧
        ((∃ a b, e = RbindError.schemaMismatch a b) ∨ ∃ nm, e = RbindError.unknownColumn nm) := by
  intro dts
  induction dts with
  | nil => rintro ndts i cols ⟨df, hdf, _⟩; simp at hdf
  | cons df rest ih =>
      rintro ndts i cols ⟨df2, hdf2, hoff⟩
      unfold bnTables
      by_cases hnc : names0.length ≠ df.ncols
      · rw [if_pos (by exact ⟨rfl, hnc⟩)]
        exact ⟨_, rfl, Or.inl ⟨_, _, rfl⟩⟩
      · rw [if_neg (by simp [hnc])]
        by_cases hall : ∀ nm ∈ df.names, nm ∈ names0
        · obtain ⟨cols2, hok⟩ := bnCols_false_ok ndts i names0 df.names 0 cols hall
          rw [hok]
          have hrest : ∃ d ∈ rest, d.ncols ≠ names0.length ∨ ∃ nm ∈ d.names, ¬ nm ∈ names0 := by
            rcases List.mem_cons.mp hdf2 with h1 | h2
            · subst h1
              rcases hoff with h | ⟨nm, hnm, hnot⟩
              · exact absurd (Ne.symm h) hnc
              · exact absurd (hall nm hnm) hnot
            · exact ⟨df2, h2, hoff⟩
          exact ih ndts (i + 1) cols2 hrest
        · push_neg at hall
          obtain ⟨nm2, herr⟩ := bnCols_false_err ndts i names0 df.names 0 cols
            (by obtain ⟨nm, h1, h2⟩ := hall; exact ⟨nm, h1, h2⟩)
          rw [herr]
          exact ⟨_, rfl, Or.inr ⟨nm2, rfl⟩⟩

theorem posTables_false_offense :
    ∀ (dts : List DataTable) (ndts i : Nat) (st : PosState),
      (∃ df ∈ dts, df.ncols ≠ st.names.length) →
      ∃ e, posTables ndts false dts i st = .error e ∧ ∃ a b, e = RbindError.schemaMismatch a b := by
  intro dts
  induction dts with
  | nil => rintro ndts i st ⟨df, hdf, _⟩; simp at hdf
  | cons df rest ih =>
      rintro ndts i st ⟨df2, hdf2, hoff⟩
      unfold posTables
      by_cases hnc : st.names.length ≠ df.ncols
      · rw [if_pos (by exact ⟨hnc, rfl⟩)]
        exact ⟨_, rfl, _, _, rfl⟩
      · rw [if_neg (by simp [hnc])]
        push_neg at hnc
        rw [if_neg (by rw [hnc]; exact Nat.lt_irrefl _)]
        have hrest : ∃ d ∈ rest, d.ncols ≠ st.names.length := by
          rcases List.mem_cons.mp hdf2 with h1 | h2
          · subst h1; exact absurd hnc.symm hoff
          · exact ⟨df2, h2, hoff⟩
        have := ih ndts (i + 1)
          ⟨st.names, (List.range df.ncols).foldl (fun m j => setMat m j i j) st.cols⟩
          (by simpa using hrest)
        simpa using this

theorem C6_planner_phase_errors (dt : DataTable) (srcs : List DataTable) (bn : Bool)
    (hk : dt.nkeys = 0)
    (hne : srcs.filter (fun s => decide (s.nrows ≠ 0)) ≠ [])
    (hoff : ∃ df ∈ srcs.filter (fun s => decide (s.nrows ≠ 0)),
        df.ncols ≠ (seedNames dt (srcs.filter (fun s => decide (s.nrows ≠ 0)))).length ∨
        (bn = true ∧ ∃ nm ∈ df.names,
          ¬ nm ∈ seedNames dt (srcs.filter (fun s => decide (s.nrows ≠ 0))))) :
    ∃ e, Frame.rbind dt srcs false bn = .error e ∧
      ((∃ a b, e = RbindError.schemaMismatch a b) ∨ ∃ nm, e = RbindError.unknownColumn nm) := by
  have h1 : ¬ ((srcs.filter (fun s => decide (s.nrows ≠ 0))).isEmpty = true) := by
    simpa [List.isEmpty_iff] using hne
  simp only [seedNames] at hoff
  unfold Frame.rbind
  dsimp only
  set dts := srcs.filter (fun s => decide (s.nrows ≠ 0)) with hdts
  set names0 := (if dt.ncols = 0 then (dts.headD default).names else dt.names) with hnames0
  rw [if_neg h1, if_neg (by simp [hk])]
  cases bn with
  | true =>
      rw [if_pos rfl]
      obtain ⟨e, herr, hkind⟩ := bnTables_false_offense names0 dts dts.length 0
        (List.replicate names0.length (List.replicate dts.length none))
        (by
          obtain ⟨df, hdf, hcase⟩ := hoff
          refine ⟨df, hdf, ?_⟩
          rcases hcase with h | ⟨_, hx⟩
          · exact Or.inl h
          · exact Or.inr hx)
      unfold bnPlan
      rw [herr]
      exact ⟨e, rfl, hkind⟩
  | false =>
      rw [if_neg (by simp)]
      obtain ⟨e, herr, hkind⟩ := posTables_false_offense dts dts.length 0
        ⟨names0, List.replicate names0.length (List.replicate dts.length none)⟩
        (by
          obtain ⟨df, hdf, hcase⟩ := hoff
          refine ⟨df, hdf, ?_⟩
          rcases hcase with h | ⟨hbn, _⟩
          · exact h
          · simp at hbn)
      unfold posPlan
      rw [herr]
      exact ⟨e, rfl, Or.inl hkind⟩

theorem C6_witness :
    exDT1.nkeys = 0 ∧
    [exDT3].filter (fun s => decide (s.nrows ≠ 0)) ≠ [] ∧
    (∃ df ∈ [exDT3].filter (fun s => decide (s.nrows ≠ 0)),
        df.ncols ≠ (seedNames exDT1 ([exDT3].filter (fun s => decide (s.nrows ≠ 0)))).length ∨
        (true = true ∧ ∃ nm ∈ df.names,
          ¬ nm ∈ seedNames exDT1 ([exDT3].filter (fun s => decide (s.nrows ≠ 0))))) ∧
    (∃ e, Frame.rbind exDT1 [exDT3] false true = .error e ∧
      ((∃ a b, e = RbindError.schemaMismatch a b) ∨ ∃ nm, e = RbindError.unknownColumn nm)) :=
  ⟨rfl, by decide, by decide,
    C6_planner_phase_errors exDT1 [exDT3] true rfl (by decide) (by decide)⟩

theorem buildINames_lookup (names : List String) (hnd : names.Nodup) :
    ∀ (i : Nat) (s : String) (k : Nat),
      (buildINames names i).lookup s = some k ↔ ∃ j, k = i + j ∧ names.get? j = some s := by
  induction names with
  | nil =>
      intro i s k
      simp [buildINames, List.lookup]
  | cons a rest ih =>
      intro i s k
      have ha : ¬ a ∈ rest := (List.nodup_cons.mp hnd).1
      have hnd2 : rest.Nodup := (List.nodup_cons.mp hnd).2
      unfold buildINames
      rw [lookup_append]
      by_cases hs : s ∈ rest
      · cases hl : (buildINames rest (i + 1)).lookup s with
        | none =>
            exfalso
            have := (buildINames_mem rest (i + 1) s).mpr hs
            rw [hl] at this
            simp at this
        | some v =>
            simp only [Option.or]
            obtain ⟨j0, hv, hj0⟩ := (ih hnd2 (i + 1) s v).mp hl
            constructor
            · intro hk
              have hk2 : k = v := by
                have := hk
                simp only [Option.some.injEq] at this
                omega
              exact ⟨j0 + 1, by omega, by simpa using hj0⟩
            · rintro ⟨j, hk, hj⟩
              cases j with
              | zero =>
                  exfalso
                  have : a = s := by simpa using hj
                  exact ha (this ▸ hs)
              | succ j2 =>
                  have hj2 : rest.get? j2 = some s := by simpa using hj
                  have hlt : j2 < rest.length := (List.get?_eq_some.mp hj2).1
                  have : j2 = j0 := by
                    apply List.getElem?_inj hlt hnd2
                    rw [← List.get?_eq_getElem?, ← List.get?_eq_getElem?, hj2, hj0]
                  subst this
                  simp only [Option.some.injEq]
                  omega
      · cases hl : (buildINames rest (i + 1)).lookup s with
        | some v =>
            exfalso
            have := (buildINames_mem rest (i + 1) s).mp (by simp [hl])
            exact hs this
        | none =>
            simp only [Option.or, List.lookup]
            by_cases hsa : s = a
            · subst hsa
              rw [show (s == s) = true by simp]
              constructor
              · intro hk
                exact ⟨0, by simpa using hk.symm, rfl⟩
              · rintro ⟨j, hk, hj⟩
                cases j with
                | zero => simp; omega
                | succ j2 =>
                    exfalso
                    exact hs (List.get?_mem (by simpa using hj))
            · have hbe : (s == a) = false := by simpa using hsa
              rw [hbe]
              simp only [List.lookup]
              constructor
              · intro hcon; simp at hcon
              · rintro ⟨j, hk, hj⟩
                cases j with
                | zero => exact absurd (by simpa using hj.symm) hsa
                | succ j2 => exact absurd (List.get?_mem (by simpa using hj)) hs

theorem inames_inv_init (names0 : List String) (hnd : names0.Nodup)
    (inm : List (String × Nat)) (cols : IndexMatrix) (hinm : inm = buildINames names0 0) :
    INamesInv ⟨names0, inm, cols⟩ := by
  subst hinm
  refine ⟨hnd, fun s k => ?_⟩
  rw [buildINames_lookup names0 hnd 0 s k]
  constructor
  · rintro ⟨j, hk, hj⟩
    have : k = j := by omega
    exact this ▸ hj
  · intro h
    exact ⟨k, by omega, h⟩

theorem mem_of_names_get? {l : List String} {k : Nat} {s : String}
    (h : l.get? k = some s) : s ∈ l := List.get?_mem h

theorem inames_inv_append {st : PlanState} (hinv : INamesInv st) (name : String)
    (hnot : st.inames.lookup name = none) (cols2 : IndexMatrix) :
    INamesInv ⟨st.names ++ [name], (name, st.names.length) :: st.inames, cols2⟩ := by
  have hmem : ¬ name ∈ st.names := by
    intro hm
    obtain ⟨n, hn⟩ := List.mem_iff_getElem?.mp hm
    have hget : st.names.get? n = some name := by rw [List.get?_eq_getElem?]; exact hn
    have := (hinv.2 name n).mpr hget
    rw [hnot] at this
    simp at this
  constructor
  · rw [List.nodup_append]
    refine ⟨hinv.1, List.nodup_singleton name, ?_⟩
    intro a ha hb
    rw [List.mem_singleton.mp hb] at ha
    exact hmem ha
  · intro s k
    show List.lookup s ((name, st.names.length) :: st.inames) = some k ↔ _
    simp only [List.lookup]
    by_cases hsa : s = name
    · subst hsa
      rw [show (s == s) = true by simp]
      constructor
      · intro hk
        have : st.names.length = k := by simpa using hk
        subst this
        exact List.get?_concat_length _ _
      · intro hk
        by_cases hlt : k < st.names.length
        · exfalso
          rw [List.get?_append hlt] at hk
          exact hmem (List.get?_mem hk)
        · by_cases heq2 : k = st.names.length
          · rw [heq2]
          · exfalso
            have hge : st.names.length + 1 ≤ k := by omega
            rw [List.get?_append_right (by omega)] at hk
            have : k - st.names.length ≥ 1 := by omega
            rw [List.get?_eq_none.mpr (by simpa using this)] at hk
            simp at hk
    · have hbe : (s == name) = false := by simpa using hsa
      rw [hbe]
      rw [hinv.2 s k]
      constructor
      · intro hk
        have hlt : k < st.names.length := (List.get?_eq_some.mp hk).1
        rw [List.get?_append hlt]
        exact hk
      · intro hk
        by_cases hlt : k < st.names.length
        · rw [List.get?_append hlt] at hk
          exact hk
        · exfalso
          rw [List.get?_append_right (by omega)] at hk
          by_cases heq2 : k = st.names.length
          · rw [heq2] at hk
            simp at hk
            exact hsa hk.symm
          · have : k - st.names.length ≥ 1 := by omega
            rw [List.get?_eq_none.mpr (by simpa using this)] at hk
            simp at hk

theorem bnCols_equiv (ndts i : Nat) (force : Bool) :
    ∀ (dfnames : List String) (j : Nat) (st : PlanState), INamesInv st →
      (bnColsG ndts i force dfnames j st = bnCols ndts i force dfnames j st ∧
       ∀ st2, bnCols ndts i force dfnames j st = .ok st2 → INamesInv st2) := by
  intro dfnames
  induction dfnames with
  | nil =>
      intro j st hinv
      exact ⟨rfl, fun st2 h => by cases h; exact hinv⟩
  | cons name rest ih =>
      intro j st hinv
      unfold bnCols bnColsG
      by_cases hfp : st.names.get? j = some name
      · have hlook : st.inames.lookup name = some j := (hinv.2 name j).mpr hfp
        rw [if_pos hfp, hlook]
        exact ih (j + 1) { st with cols := setMat st.cols j i j } ⟨hinv.1, hinv.2⟩
      · rw [if_neg hfp]
        cases hl : st.inames.lookup name with
        | some p =>
            exact ih (j + 1) { st with cols := setMat st.cols p i j } ⟨hinv.1, hinv.2⟩
        | none =>
            cases force with
            | true =>
                rw [if_pos rfl, if_pos rfl]
                exact ih (j + 1) _ (inames_inv_append hinv name hl _)
            | false =>
                rw [if_neg (by simp), if_neg (by simp)]
                exact ⟨rfl, fun st2 h => absurd h (by simp)⟩

theorem bnTables_equiv (ndts : Nat) (force : Bool) :
    ∀ (dts : List DataTable) (i : Nat) (st : PlanState), INamesInv st →
      bnTablesG ndts force dts i st = bnTables ndts force dts i st := by
  intro dts
  induction dts with
  | nil => intro i st _; rfl
  | cons df rest ih =>
      intro i st hinv
      unfold bnTables bnTablesG
      by_cases hc : force = false ∧ st.names.length ≠ df.ncols
      · rw [if_pos hc, if_pos hc]
      · rw [if_neg hc, if_neg hc]
        rw [(bnCols_equiv ndts i force df.names 0 st hinv).1]
        cases hbc : bnCols ndts i force df.names 0 st with
        | error e => rfl
        | ok st2 =>
            exact ih (i + 1) st2 ((bnCols_equiv ndts i force df.names 0 st hinv).2 st2 hbc)

/-- Claim C9: in by-name mode, the exact-name-at-same-position fast path of
the planner is observationally equivalent to a planner that always performs
the general name-to-position lookup: for every base schema with unique
names, every source list and every force flag, the two produce identical
results (final name list, ColumnIndexMatrix, and errors). -/
theorem C9_fast_path_equivalence (names0 : List String) (dts : List DataTable)
    (force : Bool) (hnd : names0.Nodup) :
    bnPlanG names0 dts force = bnPlan names0 dts force := by
  unfold bnPlan bnPlanG
  exact bnTables_equiv dts.length force dts 0 _
    (inames_inv_init names0 hnd _ _ rfl)

theorem C9_witness :
    (["Weight", "Height"] : List String).Nodup ∧
    bnPlanG ["Weight", "Height"] [exDT2] false = bnPlan ["Weight", "Height"] [exDT2] false :=
  ⟨by decide, C9_fast_path_equivalence ["Weight", "Height"] [exDT2] false (by decide)⟩


theorem xor_two_pow_of_lt {n cur : Nat} (h : cur < 2 ^ n) :
    cur ^^^ 2 ^ n = 2 ^ n + cur := by
  apply Nat.eq_of_testBit_eq
  intro i
  rw [Nat.testBit_xor]
  rcases lt_trichotomy i n with hlt | heq | hgt
  · rw [Nat.testBit_two_pow_add_gt hlt, Nat.testBit_two_pow_of_ne (by omega)]
    cases cur.testBit i <;> rfl
  · subst heq
    rw [Nat.testBit_two_pow_add_eq, Nat.testBit_lt_two_pow h, Nat.testBit_two_pow_self]
    rfl
  · have h2 : 2 ^ n + cur < 2 ^ i := by
      have : 2 ^ (n + 1) ≤ 2 ^ i := Nat.pow_le_pow_right (by omega) (by omega)
      have := Nat.pow_succ 2 n
      omega
    rw [Nat.testBit_lt_two_pow h2, Nat.testBit_lt_two_pow (by
      calc cur < 2 ^ n := h
      _ ≤ 2 ^ i := Nat.pow_le_pow_right (by omega) (by omega)),
      Nat.testBit_two_pow_of_ne (by omega)]
    rfl

theorem naFillVal_eq {w cur : Nat} (h : cur < 2 ^ (w - 1)) :
    naFillVal w cur = 2 ^ (w - 1) + cur := xor_two_pow_of_lt h

theorem offNA_naFillVal {w cur : Nat} (h : cur < 2 ^ (w - 1)) :
    offNA w (naFillVal w cur) = true := by
  rw [naFillVal_eq h]
  unfold offNA
  rw [Nat.testBit_two_pow_add_eq, Nat.testBit_lt_two_pow h]
  rfl

theorem offVal_naFillVal {w cur : Nat} (h : cur < 2 ^ (w - 1)) :
    offVal w (naFillVal w cur) = cur := by
  rw [naFillVal_eq h]
  unfold offVal
  rw [Nat.add_mod_left, Nat.mod_eq_of_lt h]

theorem naFillVal_lt {w cur : Nat} (h : cur < 2 ^ (w - 1)) (hw : 1 ≤ w) :
    naFillVal w cur < 2 ^ w := by
  rw [naFillVal_eq h]
  have : 2 ^ w = 2 ^ (w - 1) + 2 ^ (w - 1) := by
    have h2 : w - 1 + 1 = w := by omega
    calc 2 ^ w = 2 ^ (w - 1 + 1) := by rw [h2]
    _ = 2 ^ (w - 1) * 2 := Nat.pow_succ 2 (w - 1)
    _ = 2 ^ (w - 1) + 2 ^ (w - 1) := by omega
  omega

theorem getD_mem_of_lt {l : List Nat} {n : Nat} (h : n < l.length) :
    l.getD n 0 ∈ l := by
  rw [List.getD_eq_getElem l 0 h]
  exact List.getElem_mem h

theorem extract_append {buf bext : List Nat} {s v : Nat} (hv : v ≤ buf.length) :
    ((buf ++ bext).drop s).take (v - s) = (buf.drop s).take (v - s) := by
  by_cases hs : s ≤ buf.length
  · rw [List.drop_append_of_le_length hs]
    exact List.take_append_of_le_length (by simp; omega)
  · have h0 : v - s = 0 := by omega
    simp [h0]

theorem strAt_append_front {w : Nat} {l ext buf bext : List Nat} {r : Nat}
    (hr : r < l.length)
    (hb : ∀ e ∈ l, offVal w e ≤ buf.length) :
    strAt w (l ++ ext) (buf ++ bext) r = strAt w l buf r := by
  have hgr : (l ++ ext).getD r 0 = l.getD r 0 := List.getD_append _ _ _ _ hr
  have hstart : strStart w (l ++ ext) r = strStart w l r := by
    cases r with
    | zero => rfl
    | succ j =>
        simp only [strStart]
        rw [List.getD_append _ _ _ _ (by omega)]
  unfold strAt
  rw [hgr, hstart]
  cases hna : offNA w (l.getD r 0)
  · simp only [Bool.false_eq_true, if_false]
    have hv : offVal w (l.getD r 0) ≤ buf.length := hb _ (getD_mem_of_lt hr)
    rw [extract_append hv]
  · dsimp only
    rw [if_pos hna, if_pos hna]


theorem offVal_lt (w e : Nat) : offVal w e < 2 ^ (w - 1) :=
  Nat.mod_lt _ (Nat.two_pow_pos _)

theorem off_decomp {w e : Nat} (hw1 : 1 ≤ w) (he : e < 2 ^ w) :
    e = offVal w e + (if offNA w e = true then 2 ^ (w - 1) else 0) := by
  have hpow : 2 ^ w = 2 ^ (w - 1) * 2 := by
    have h2 : w - 1 + 1 = w := by omega
    calc 2 ^ w = 2 ^ (w - 1 + 1) := by rw [h2]
    _ = 2 ^ (w - 1) * 2 := Nat.pow_succ 2 (w - 1)
  have hdm := Nat.div_add_mod e (2 ^ (w - 1))
  have hq : e / 2 ^ (w - 1) < 2 := by
    apply Nat.div_lt_of_lt_mul
    omega
  have hbit : offNA w e = decide (e / 2 ^ (w - 1) % 2 = 1) := Nat.testBit_to_div_mod
  have hval : offVal w e = e % 2 ^ (w - 1) := rfl
  interval_cases hcase : (e / 2 ^ (w - 1))
  · have hna : offNA w e = false := by rw [hbit]; rfl
    rw [hna, hval]
    simp only [Bool.false_eq_true, if_false]
    omega
  · have hna : offNA w e = true := by rw [hbit]; rfl
    rw [hna, hval]
    simp only [if_true]
    omega

theorem off_bound_of_lt_half {w x : Nat} (h : x < 2 ^ (w - 1)) :
    offNA w x = false ∧ offVal w x = x :=
  ⟨Nat.testBit_lt_two_pow h, Nat.mod_eq_of_lt h⟩

theorem off_of_half_add {w x : Nat} (h : x < 2 ^ (w - 1)) :
    offNA w (2 ^ (w - 1) + x) = true ∧ offVal w (2 ^ (w - 1) + x) = x := by
  constructor
  · unfold offNA
    rw [Nat.testBit_two_pow_add_eq, Nat.testBit_lt_two_pow h]
    rfl
  · unfold offVal
    rw [Nat.add_mod_left, Nat.mod_eq_of_lt h]

theorem translate32_spec {w : Nat} (hw : w = 32 ∨ w = 64) {cur e : Nat}
    (he : e < 2 ^ 32) (hsmall : cur + offVal 32 e < 2 ^ (w - 1)) :
    offNA w (translate32 w cur e) = offNA 32 e ∧
    offVal w (translate32 w cur e) = cur + offVal 32 e := by
  have hdec := off_decomp (by omega : 1 ≤ 32) he
  have hvlt := offVal_lt 32 e
  set v := offVal 32 e with hv
  cases hna : offNA 32 e with
  | false =>
      rw [hna] at hdec
      simp only [Bool.false_eq_true, if_false, Nat.add_zero] at hdec
      have hval : translate32 w cur e = cur + v := by
        unfold translate32
        rw [hna]
        simp only [Bool.false_eq_true, and_false, if_false, Nat.add_zero]
        rw [hdec]
        have hlt : v + cur < 2 ^ w := by
          rcases hw with rfl | rfl <;> (norm_num at hsmall ⊢; omega)
        rw [Nat.mod_eq_of_lt hlt]
        omega
      rw [hval]
      exact off_bound_of_lt_half hsmall
  | true =>
      rw [hna] at hdec
      simp only [if_true] at hdec
      have hval : translate32 w cur e = 2 ^ (w - 1) + (cur + v) := by
        unfold translate32
        rw [hna, hdec]
        rcases hw with rfl | rfl
        · norm_num at hsmall hvlt ⊢
          rw [Nat.mod_eq_of_lt (by omega)]
          omega
        · norm_num [deltaNA] at hsmall hvlt ⊢
          rw [Nat.mod_eq_of_lt (by omega)]
          omega
      rw [hval]
      exact off_of_half_add hsmall


theorem translate64_spec {w : Nat} (hw : w = 32 ∨ w = 64) {cur e : Nat}
    (he : e < 2 ^ 64) (hsmall : cur + offVal 64 e < 2 ^ (w - 1)) :
    offNA w (translate64 w cur e) = offNA 64 e ∧
    offVal w (translate64 w cur e) = cur + offVal 64 e := by
  have hdec := off_decomp (by omega : 1 ≤ 64) he
  have hvlt := offVal_lt 64 e
  set v := offVal 64 e with hv
  cases hna : offNA 64 e with
  | false =>
      rw [hna] at hdec
      simp only [Bool.false_eq_true, if_false, Nat.add_zero] at hdec
      have hval : translate64 w cur e = cur + v := by
        unfold translate64
        rw [hna]
        simp only [Bool.false_eq_true, and_false, if_false, Nat.sub_zero]
        rw [hdec]
        rcases hw with rfl | rfl
        · norm_num at hsmall hvlt ⊢
          rw [Nat.mod_eq_of_lt (by omega)]
          omega
        · norm_num at hsmall hvlt ⊢
          rw [Nat.mod_eq_of_lt (by omega)]
          omega
      rw [hval]
      exact off_bound_of_lt_half hsmall
  | true =>
      rw [hna] at hdec
      simp only [if_true] at hdec
      have hval : translate64 w cur e = 2 ^ (w - 1) + (cur + v) := by
        unfold translate64
        rw [hna, hdec]
        rcases hw with rfl | rfl
        · norm_num [deltaNA] at hsmall hvlt ⊢
          rw [show v + 9223372036854775808 = v + 2147483648 * 4294967296 by omega]
          rw [Nat.add_mul_mod_self_right]
          rw [Nat.mod_eq_of_lt (by omega : v < 4294967296)]
          rw [show v + cur + (4294967296 - 2147483648) = (v + cur + 2147483648) by omega]
          rw [Nat.mod_eq_of_lt (by omega)]
          omega
        · norm_num at hsmall hvlt ⊢
          rw [Nat.mod_eq_of_lt (by omega)]
          omega
      rw [hval]
      exact off_of_half_add hsmall

theorem getD_replicate_of_lt {a : Nat} {n i : Nat} (h : i < n) :
    (List.replicate n a).getD i 0 = a := by
  rw [List.getD_eq_getElem?_getD, List.getElem?_replicate, if_pos h]
  rfl

theorem getD_map_range (f : Nat → Nat) {n t : Nat} (ht : t < n) :
    ((List.range n).map f).getD t 0 = f t := by
  rw [List.getD_eq_getElem?_getD, List.getElem?_map, List.getElem?_range ht]
  rfl

theorem strAt_of_na {w : Nat} {offs buf : List Nat} {r : Nat}
    (h : offNA w (offs.getD r 0) = true) : strAt w offs buf r = none := by
  unfold strAt
  dsimp only
  rw [if_pos h]

theorem strAt_of_not_na {w : Nat} {offs buf : List Nat} {r : Nat}
    (h : offNA w (offs.getD r 0) = false) :
    strAt w offs buf r =
      some ((buf.drop (strStart w offs r)).take
        (offVal w (offs.getD r 0) - strStart w offs r)) := by
  unfold strAt
  dsimp only
  rw [if_neg (by rw [h]; simp)]

theorem strAt_append_offs {w : Nat} {l ext buf : List Nat} {r : Nat}
    (hr : r < l.length)
    (hb : ∀ e ∈ l, offVal w e ≤ buf.length) :
    strAt w (l ++ ext) buf r = strAt w l buf r := by
  have := @strAt_append_front w l ext buf [] r hr hb
  simpa using this

theorem translateBlock_length (w : Nat) (c : Column) (cur : Nat) :
    (translateBlock w c cur).length = c.nrows := by
  unfold translateBlock
  split <;> simp

theorem strSrcWF_str {c : Column} (hc : StrSrcWF c) (hcv : ¬ c.stype = .void) :
    c.strOffs.length = c.nrows ∧ StrColWF (strWidth c.stype) c.strOffs c.strBuf := by
  rcases hc with h | ⟨_, h2, h3⟩
  · exact absurd h hcv
  · exact ⟨h2, h3⟩

theorem translateBlock_getD {w : Nat} (hw : w = 32 ∨ w = 64) {c : Column}
    (hc : StrSrcWF c) (hcv : ¬ c.stype = .void)
    {cur : Nat} (hbound : cur + c.strBuf.length < 2 ^ (w - 1)) {t : Nat} (ht : t < c.nrows) :
    offNA w ((translateBlock w c cur).getD t 0) = offNA (strWidth c.stype) (c.strOffs.getD t 0) ∧
    offVal w ((translateBlock w c cur).getD t 0)
      = cur + offVal (strWidth c.stype) (c.strOffs.getD t 0) := by
  obtain ⟨hlen, hlt, hbnd, _, _, _⟩ :=
    (fun h => ⟨(strSrcWF_str hc hcv).1, h.1, h.2.1, h.2.2.1, h.2.2.2.1, h.2.2.2.2⟩ :
      StrColWF (strWidth c.stype) c.strOffs c.strBuf →
        c.strOffs.length = c.nrows ∧ _ ∧ _ ∧ _ ∧ _ ∧ _) (strSrcWF_str hc hcv).2
  have hmem : c.strOffs.getD t 0 ∈ c.strOffs := getD_mem_of_lt (by omega)
  have hsmall : cur + offVal (strWidth c.stype) (c.strOffs.getD t 0) < 2 ^ (w - 1) := by
    have := hbnd _ hmem
    omega
  rcases hc with h | ⟨hst, _, _⟩
  · exact absurd h hcv
  rcases hst with h32 | h64
  · have hsw : strWidth c.stype = 32 := by rw [h32]; rfl
    have hb : translateBlock w c cur
        = (List.range c.nrows).map (fun j => translate32 w cur (c.strOffs.getD j 0)) := by
      unfold translateBlock
      rw [if_pos h32]
    rw [hb, getD_map_range _ ht, hsw]
    rw [hsw] at hsmall
    exact translate32_spec hw (by have := hlt _ hmem; rw [hsw] at this; exact this) hsmall
  · have hsw : strWidth c.stype = 64 := by rw [h64]; rfl
    have hb : translateBlock w c cur
        = (List.range c.nrows).map (fun j => translate64 w cur (c.strOffs.getD j 0)) := by
      unfold translateBlock
      rw [if_neg (by rw [h64]; intro hc2; cases hc2)]
    rw [hb, getD_map_range _ ht, hsw]
    rw [hsw] at hsmall
    exact translate64_spec hw (by have := hlt _ hmem; rw [hsw] at this; exact this) hsmall

theorem blockValue_cons (c : Column) (cs : List Column) (r : Nat) :
    blockValue (c :: cs) r
      = if r < c.nrows then colStrValue c r else blockValue cs (r - c.nrows) := rfl

theorem sumNrows_cons (c : Column) (cs : List Column) :
    sumNrows (c :: cs) = c.nrows + sumNrows cs := by
  unfold sumNrows
  simp

theorem strBytes_cons (c : Column) (cs : List Column) :
    strBytes (c :: cs) = (if c.stype = .void then 0 else c.strBuf.length) + strBytes cs := by
  unfold strBytes
  simp

set_option maxHeartbeats 1000000 in
theorem strLoop_spec (w : Nat) (hw : w = 32 ∨ w = 64) (TOT : Nat) (hTOT : TOT < 2 ^ (w - 1)) :
    ∀ (cols : List Column) (offsAcc : List Nat) (pending cur : Nat) (buf : List Nat)
      (E : Nat → Option (List Nat)),
      (∀ c ∈ cols, StrSrcWF c) →
      cur = buf.length →
      cur + strBytes cols ≤ TOT →
      (∀ e ∈ offsAcc, offVal w e ≤ buf.length) →
      lastVal w offsAcc = cur →
      (∀ r, r < offsAcc.length → strAt w offsAcc buf r = E r) →
      (strLoop w cols offsAcc pending cur buf).1.length
          = offsAcc.length + pending + sumNrows cols ∧
      (∀ r, r < offsAcc.length + pending + sumNrows cols →
          strAt w (strLoop w cols offsAcc pending cur buf).1
              (strLoop w cols offsAcc pending cur buf).2 r =
            if r < offsAcc.length then E r
            else if r < offsAcc.length + pending then none
            else blockValue cols (r - offsAcc.length - pending)) := by
  intro cols
  induction cols with
  | nil =>
      intro offsAcc pending cur buf E hsrc hcur hbound hacc hlast hE
      have hcurlt : cur < 2 ^ (w - 1) := by
        unfold strBytes at hbound
        simp at hbound
        omega
      constructor
      · unfold strLoop sumNrows
        simp
      · intro r hr
        unfold strLoop
        dsimp only
        by_cases h1 : r < offsAcc.length
        · rw [if_pos h1, strAt_append_offs h1 hacc]
          exact hE r h1
        · rw [if_neg h1]
          have h2 : r < offsAcc.length + pending := by
            unfold sumNrows at hr
            simp at hr
            omega
          rw [if_pos h2]
          apply strAt_of_na
          rw [List.getD_append_right _ _ _ _ (by omega),
              getD_replicate_of_lt (by omega)]
          exact offNA_naFillVal hcurlt
  | cons c cs ih =>
      intro offsAcc pending cur buf E hsrc hcur hbound hacc hlast hE
      by_cases hv : c.stype = .void
      · have hstep : strLoop w (c :: cs) offsAcc pending cur buf
            = strLoop w cs offsAcc (pending + c.nrows) cur buf := by
          conv_lhs => unfold strLoop
          rw [if_pos hv]
        rw [hstep]
        have hbytes : strBytes (c :: cs) = strBytes cs := by
          rw [strBytes_cons, if_pos hv]
          omega
        rw [hbytes] at hbound
        obtain ⟨ihlen, ihdec⟩ := ih offsAcc (pending + c.nrows) cur buf E
          (fun x hx => hsrc x (List.mem_cons_of_mem _ hx)) hcur hbound hacc hlast hE
        constructor
        · rw [ihlen, sumNrows_cons]
          omega
        · intro r hr
          rw [sumNrows_cons] at hr
          rw [ihdec r (by omega)]
          by_cases h1 : r < offsAcc.length
          · rw [if_pos h1, if_pos h1]
          · rw [if_neg h1, if_neg h1]
            by_cases h2 : r < offsAcc.length + pending
            · rw [if_pos h2, if_pos (by omega)]
            · rw [if_neg h2]
              by_cases h3 : r < offsAcc.length + (pending + c.nrows)
              · rw [if_pos h3, blockValue_cons]
                rw [if_pos (by omega)]
                unfold colStrValue
                rw [if_pos hv]
              · rw [if_neg h3, blockValue_cons]
                rw [if_neg (by omega)]
                congr 1
                omega
      · have hw1 : 1 ≤ w := by rcases hw with rfl | rfl <;> omega
        have hhalf : 2 ^ (w - 1) < 2 ^ w := Nat.pow_lt_pow_right (by omega) (by omega)
        obtain ⟨holen, hWF⟩ := strSrcWF_str (hsrc c (List.mem_cons_self _ _)) hv
        obtain ⟨hlt, hbnd, hnaEq, htotal, hemp⟩ := hWF
        have hbytes : strBytes (c :: cs) = c.strBuf.length + strBytes cs := by
          rw [strBytes_cons, if_neg hv]
        rw [hbytes] at hbound
        have hcl : cur + c.strBuf.length < 2 ^ (w - 1) := by omega
        have hcur_lt : cur < 2 ^ (w - 1) := by omega
        have hcur2 : (cur + c.strBuf.length % 2 ^ w) % 2 ^ w = cur + c.strBuf.length := by
          rw [Nat.mod_eq_of_lt (by omega : c.strBuf.length < 2 ^ w)]
          exact Nat.mod_eq_of_lt (by omega)
        have hstep : strLoop w (c :: cs) offsAcc pending cur buf
            = strLoop w cs
                ((offsAcc ++ List.replicate pending (naFillVal w cur)) ++ translateBlock w c cur)
                0 (cur + c.strBuf.length)
                (buf ++ c.strBuf) := by
          conv_lhs => unfold strLoop
          rw [if_neg hv, hcur2]
        rw [hstep]
        have hblen := translateBlock_length w c cur
        have hgetblock := fun (t : Nat) (ht : t < c.nrows) =>
          translateBlock_getD hw (hsrc c (List.mem_cons_self _ _)) hv hcl ht
        -- entry at a block position
        have hentry : ∀ r, offsAcc.length + pending ≤ r →
            r < offsAcc.length + pending + c.nrows →
            ((offsAcc ++ List.replicate pending (naFillVal w cur)) ++ translateBlock w c cur).getD r 0
              = (translateBlock w c cur).getD (r - offsAcc.length - pending) 0 := by
          intro r h1 h2
          rw [List.getD_append_right _ _ _ _ (by simp; omega)]
          congr 1
          simp
          omega
        -- entry at an NA-fill position
        have hentryNA : ∀ r, offsAcc.length ≤ r → r < offsAcc.length + pending →
            ((offsAcc ++ List.replicate pending (naFillVal w cur)) ++ translateBlock w c cur).getD r 0
              = naFillVal w cur := by
          intro r h1 h2
          rw [List.getD_append _ _ _ _ (by simp; omega),
              List.getD_append_right _ _ _ _ (by omega),
              getD_replicate_of_lt (by omega)]
        -- entry at an original position
        have hentryOld : ∀ r, r < offsAcc.length →
            ((offsAcc ++ List.replicate pending (naFillVal w cur)) ++ translateBlock w c cur).getD r 0
              = offsAcc.getD r 0 := by
          intro r h1
          rw [List.getD_append _ _ _ _ (by simp; omega),
              List.getD_append _ _ _ _ (by omega)]
        -- the start offset of merged block row r
        have hstart : ∀ r, offsAcc.length + pending ≤ r →
            r < offsAcc.length + pending + c.nrows →
            strStart w ((offsAcc ++ List.replicate pending (naFillVal w cur)) ++ translateBlock w c cur) r
              = cur + strStart (strWidth c.stype) c.strOffs (r - offsAcc.length - pending) := by
          intro r h1 h2
          cases hr0 : r with
          | zero =>
              have hoA : offsAcc.length = 0 := by omega
              have hp0 : pending = 0 := by omega
              have hc0 : cur = 0 := by
                rw [← hlast]
                unfold lastVal
                rw [if_pos (List.eq_nil_of_length_eq_zero hoA)]
              simp only [strStart, hoA, hp0, hc0]
          | succ r2 =>
              show offVal w (((offsAcc ++ List.replicate pending (naFillVal w cur)) ++ translateBlock w c cur).getD r2 0) = _
              by_cases hp : r2 < offsAcc.length + pending
              · -- previous row is an NA-fill row or an original row; start of block row 0
                have ht0 : r2 + 1 - offsAcc.length - pending = 0 := by omega
                rw [ht0]
                simp only [strStart]
                by_cases hp2 : pending = 0
                · -- previous row is the last original row
                  have hr2 : r2 = offsAcc.length - 1 := by omega
                  have hne : offsAcc ≠ [] := by
                    intro hnil
                    rw [hnil] at hp
                    simp at hp
                    omega
                  rw [hentryOld r2 (by omega)]
                  rw [← hlast]
                  unfold lastVal
                  rw [if_neg hne, hr2]
                  omega
                · -- previous row is the last NA-fill row
                  rw [hentryNA r2 (by omega) (by omega)]
                  rw [offVal_naFillVal hcur_lt]
                  omega
              · -- previous row is inside the block
                have ht : r2 - offsAcc.length - pending < c.nrows := by omega
                rw [hentry r2 (by omega) (by omega)]
                rw [(hgetblock _ ht).2]
                have hts : r2 + 1 - offsAcc.length - pending = (r2 - offsAcc.length - pending) + 1 := by
                  omega
                rw [hts]
                simp only [strStart]
        -- facts needed by the recursive call
        have hsrc2 : ∀ x ∈ cs, StrSrcWF x := fun x hx => hsrc x (List.mem_cons_of_mem _ hx)
        have hcur2b : cur + c.strBuf.length = (buf ++ c.strBuf).length := by
          simp
          omega
        have hbound2 : cur + c.strBuf.length + strBytes cs ≤ TOT := by omega
        have hacc2 : ∀ e ∈ (offsAcc ++ List.replicate pending (naFillVal w cur)) ++ translateBlock w c cur,
            offVal w e ≤ (buf ++ c.strBuf).length := by
          intro e he
          simp only [List.length_append]
          rcases List.mem_append.mp he with he1 | he2
          · rcases List.mem_append.mp he1 with he3 | he4
            · have := hacc e he3
              omega
            · rw [List.eq_of_mem_replicate he4, offVal_naFillVal hcur_lt]
              omega
          · obtain ⟨t, hte⟩ := List.mem_iff_getElem?.mp he2
            have htlt : t < c.nrows := by
              by_contra hcc
              rw [List.getElem?_eq_none (by rw [hblen]; omega)] at hte
              simp at hte
            have hte2 : e = (translateBlock w c cur).getD t 0 := by
              rw [List.getD_eq_getElem?_getD, hte]
              rfl
            rw [hte2, (hgetblock t htlt).2]
            have hv2 : offVal (strWidth c.stype) (c.strOffs.getD t 0) ≤ c.strBuf.length :=
              hbnd _ (getD_mem_of_lt (by omega))
            omega
        have hlast2 : lastVal w ((offsAcc ++ List.replicate pending (naFillVal w cur)) ++ translateBlock w c cur)
            = cur + c.strBuf.length := by
          by_cases hn : c.nrows = 0
          · have honil : c.strOffs = [] := List.eq_nil_of_length_eq_zero (by omega)
            have hsnil : c.strBuf = [] := hemp honil
            have hbnil : translateBlock w c cur = [] :=
              List.eq_nil_of_length_eq_zero (by rw [hblen]; omega)
            rw [hbnil, List.append_nil, hsnil]
            simp only [List.length_nil]
            by_cases hp2 : pending = 0
            · rw [hp2]
              simp only [List.replicate_zero, List.append_nil]
              rw [hlast]
              omega
            · unfold lastVal
              rw [if_neg (by simp; omega)]
              rw [List.getD_append_right _ _ _ _ (by simp; omega)]
              rw [show (offsAcc ++ List.replicate pending (naFillVal w cur)).length - 1 - offsAcc.length
                  = pending - 1 by simp; omega]
              rw [getD_replicate_of_lt (by omega), offVal_naFillVal hcur_lt]
              omega
          · unfold lastVal
            rw [if_neg (by
              intro hnil
              have := congrArg List.length hnil
              simp [hblen] at this
              omega)]
            have hL : ((offsAcc ++ List.replicate pending (naFillVal w cur)) ++ translateBlock w c cur).length - 1
                = offsAcc.length + pending + (c.nrows - 1) := by
              simp [hblen]
              omega
            rw [hL, hentry _ (by omega) (by omega)]
            rw [show offsAcc.length + pending + (c.nrows - 1) - offsAcc.length - pending
                = c.nrows - 1 by omega]
            rw [(hgetblock _ (by omega)).2]
            have := htotal (by intro hnil; rw [hnil] at holen; simp at holen; omega)
            rw [holen] at this
            rw [this]
        have hE2 : ∀ r, r < ((offsAcc ++ List.replicate pending (naFillVal w cur)) ++ translateBlock w c cur).length →
            strAt w ((offsAcc ++ List.replicate pending (naFillVal w cur)) ++ translateBlock w c cur)
                (buf ++ c.strBuf) r
              = (fun r => if r < offsAcc.length then E r
                  else if r < offsAcc.length + pending then none
                  else colStrValue c (r - offsAcc.length - pending)) r := by
          intro r hr
          dsimp only
          simp only [List.length_append, List.length_replicate, hblen] at hr
          by_cases h1 : r < offsAcc.length
          · rw [if_pos h1]
            rw [List.append_assoc]
            rw [strAt_append_front h1 hacc]
            exact hE r h1
          · rw [if_neg h1]
            by_cases h2 : r < offsAcc.length + pending
            · rw [if_pos h2]
              apply strAt_of_na
              rw [hentryNA r (by omega) h2]
              exact offNA_naFillVal hcur_lt
            · rw [if_neg h2]
              have ht : r - offsAcc.length - pending < c.nrows := by omega
              obtain ⟨hbNA, hbVal⟩ := hgetblock _ ht
              unfold colStrValue
              rw [if_neg hv]
              cases hsna : offNA (strWidth c.stype) (c.strOffs.getD (r - offsAcc.length - pending) 0) with
              | true =>
                  rw [strAt_of_na (by rw [hentry r (by omega) (by omega)]; rw [hbNA, hsna])]
                  rw [strAt_of_na hsna]
              | false =>
                  rw [strAt_of_not_na (by rw [hentry r (by omega) (by omega)]; rw [hbNA, hsna])]
                  rw [strAt_of_not_na hsna]
                  rw [hentry r (by omega) (by omega), hbVal]
                  rw [hstart r (by omega) (by omega)]
                  have hdropb : (buf ++ c.strBuf).drop (cur + strStart (strWidth c.stype) c.strOffs (r - offsAcc.length - pending))
                      = c.strBuf.drop (strStart (strWidth c.stype) c.strOffs (r - offsAcc.length - pending)) := by
                    rw [hcur]
                    exact List.drop_append _
                  rw [hdropb]
                  have harg : cur + offVal (strWidth c.stype) (c.strOffs.getD (r - offsAcc.length - pending) 0)
                      - (cur + strStart (strWidth c.stype) c.strOffs (r - offsAcc.length - pending))
                      = offVal (strWidth c.stype) (c.strOffs.getD (r - offsAcc.length - pending) 0)
                        - strStart (strWidth c.stype) c.strOffs (r - offsAcc.length - pending) := by
                    omega
                  rw [harg]
        obtain ⟨ihlen, ihdec⟩ := ih
          ((offsAcc ++ List.replicate pending (naFillVal w cur)) ++ translateBlock w c cur)
          0 (cur + c.strBuf.length) (buf ++ c.strBuf)
          (fun r => if r < offsAcc.length then E r
            else if r < offsAcc.length + pending then none
            else colStrValue c (r - offsAcc.length - pending))
          hsrc2 hcur2b hbound2 hacc2 hlast2 hE2
        have hlens : ((offsAcc ++ List.replicate pending (naFillVal w cur)) ++ translateBlock w c cur).length
            = offsAcc.length + pending + c.nrows := by
          simp [hblen]
          omega
        constructor
        · rw [ihlen, hlens, sumNrows_cons]
          omega
        · intro r hr
          rw [sumNrows_cons] at hr
          rw [ihdec r (by rw [hlens]; omega)]
          rw [hlens]
          simp only [Nat.add_zero]
          by_cases h1 : r < offsAcc.length
          · rw [if_pos (by omega : r < offsAcc.length + pending + c.nrows), if_pos h1, if_pos h1]
          · by_cases h2 : r < offsAcc.length + pending
            · rw [if_pos (by omega : r < offsAcc.length + pending + c.nrows), if_neg h1, if_pos h2,
                  if_neg h1, if_pos h2]
            · by_cases h3 : r < offsAcc.length + pending + c.nrows
              · rw [if_pos h3, if_neg h1, if_neg h2, if_neg h1, if_neg h2, blockValue_cons,
                    if_pos (by omega)]
              · rw [if_neg h3, if_neg h1, if_neg h2, blockValue_cons, if_neg (by omega)]
                have hidx : r - (offsAcc.length + pending + c.nrows) - 0
                    = r - offsAcc.length - pending - c.nrows := by omega
                rw [hidx, if_neg (by omega)]


theorem strNormalize_id {st : SType} {c : Column} (hc : StrSrcWF c) :
    strNormalize st c = c := by
  unfold strNormalize
  rcases hc with h | ⟨h2, _, _⟩
  · rw [if_pos h]
  · rcases h2 with h32 | h64
    · rw [if_neg (by rw [h32]; intro hc2; cases hc2), if_pos (by rw [h32]; rfl)]
    · rw [if_neg (by rw [h64]; intro hc2; cases hc2), if_pos (by rw [h64]; rfl)]

theorem map_strNormalize_id {st : SType} {columns : List Column}
    (hsrc : ∀ c ∈ columns, StrSrcWF c) :
    columns.map (strNormalize st) = columns := by
  rw [List.map_congr_left (fun c hc => strNormalize_id (hsrc c hc))]
  exact List.map_id _

theorem strTotalBytes_eq {selfSbuf : List Nat} {columns : List Column} {ce : Bool} :
    strTotalBytes selfSbuf columns ce
      = (if ce then 0 else selfSbuf.length) + strBytes columns := rfl

theorem strRbindImpl_spec (w : Nat) (self : Column) (columns : List Column)
    (newNrows : Nat) (colEmpty : Bool) (o b : List Nat)
    (hw : w = 32 ∨ w = 64)
    (hsrc : ∀ c ∈ columns, StrSrcWF c)
    (hself : colEmpty = false →
        self.strOffs.length = self.nrows ∧ StrColWF w self.strOffs self.strBuf)
    (hnn : newNrows = self.nrows + sumNrows columns)
    (htot : w = 64 → strTotalBytes self.strBuf columns colEmpty < 2 ^ 63)
    (hres : strRbindImpl w self columns newNrows colEmpty = .built o b) :
    o.length = newNrows ∧
    ∀ r, r < newNrows → strAt w o b r = strExpected w self colEmpty columns r := by
  have hnorm := @map_strNormalize_id self.stype columns hsrc
  unfold strRbindImpl at hres
  rw [hnorm] at hres
  dsimp only at hres
  by_cases hcheck : w = 32 ∧ (strTotalBytes self.strBuf columns colEmpty > MAX_ARR32_SIZE ∨
      newNrows > MAX_ARR32_SIZE)
  · rw [if_pos hcheck] at hres
    cases hres
  · rw [if_neg hcheck] at hres
    have hTOT : strTotalBytes self.strBuf columns colEmpty < 2 ^ (w - 1) := by
      rcases hw with rfl | rfl
      · have h1 : ¬ (strTotalBytes self.strBuf columns colEmpty > MAX_ARR32_SIZE ∨
            newNrows > MAX_ARR32_SIZE) := fun hcc => hcheck ⟨rfl, hcc⟩
        push_neg at h1
        have := h1.1
        unfold MAX_ARR32_SIZE at this
        norm_num at this ⊢
        omega
      · have := htot rfl
        norm_num at this ⊢
        omega
    cases colEmpty with
    | true =>
        simp only [if_true] at hres
        obtain ⟨hlen, hdec⟩ := strLoop_spec w hw (strTotalBytes self.strBuf columns true) hTOT
          columns [] self.nrows 0 [] (fun _ => none)
          hsrc rfl (by rw [strTotalBytes_eq]; simp) (by simp)
          (by rfl) (by simp)
        cases hres
        constructor
        · rw [hlen]
          simp
          omega
        · intro r hr
          rw [hdec r (by simp; omega)]
          unfold strExpected
          simp only [List.length_nil]
          by_cases h1 : r < self.nrows
          · rw [if_neg (by omega), if_pos (by omega), if_pos h1, if_pos trivial]
          · rw [if_neg (by omega), if_neg (by omega), if_neg h1]
            congr 1
    | false =>
        simp only [Bool.false_eq_true, if_false] at hres
        obtain ⟨holen, hWF⟩ := hself rfl
        obtain ⟨hlt, hbnd, hnaEq, htotal, hemp⟩ := hWF
        have hcur0 : (if self.nrows = 0 then 0
            else offVal w (self.strOffs.getD (self.nrows - 1) 0)) = self.strBuf.length := by
          by_cases hn : self.nrows = 0
          · rw [if_pos hn]
            have honil : self.strOffs = [] := List.eq_nil_of_length_eq_zero (by omega)
            rw [hemp honil]
            rfl
          · rw [if_neg hn]
            have := htotal (by
              intro hnil
              rw [hnil] at holen
              simp at holen
              omega)
            rw [holen] at this
            exact this
        rw [hcur0] at hres
        have hlast0 : lastVal w self.strOffs = self.strBuf.length := by
          unfold lastVal
          by_cases hn : self.strOffs = []
          · rw [if_pos hn]
            rw [hemp hn]
            rfl
          · rw [if_neg hn]
            exact htotal hn
        obtain ⟨hlen, hdec⟩ := strLoop_spec w hw (strTotalBytes self.strBuf columns false) hTOT
          columns self.strOffs 0 self.strBuf.length self.strBuf
          (fun r => strAt w self.strOffs self.strBuf r)
          hsrc rfl (by rw [strTotalBytes_eq]; simp) hbnd hlast0 (fun r _ => rfl)
        cases hres
        constructor
        · rw [hlen]
          omega
        · intro r hr
          rw [hdec r (by omega)]
          unfold strExpected
          rw [holen]
          by_cases h1 : r < self.nrows
          · rw [if_pos h1, if_pos h1]
            rw [if_neg (by simp)]
          · rw [if_neg h1, if_neg (by omega), if_neg h1]
            congr 1
/-- Claim C2: decoding the merged offset array and byte buffer produced by
the string appender yields, at every row, exactly the string value (or the
missing marker) that the source supplying that row held, including when
sources mix 32-bit and 64-bit offset encodings and NA-tagged offsets are
translated between widths.  Hypotheses: the target width is 32 or 64; every
appended column is VOID or a well-formed string column; the starting column
is well formed when non-empty; the row count is the sum the caller
computes; and at 64-bit width the merged byte size stays below 2^63 (at
32-bit width the appender checks this itself before building anything). -/
theorem C2_string_round_trip (w : Nat) (self : Column) (columns : List Column)
    (newNrows : Nat) (colEmpty : Bool) (o b : List Nat)
    (hw : w = 32 ∨ w = 64)
    (hsrc : ∀ c ∈ columns, StrSrcWF c)
    (hself : colEmpty = false →
        self.strOffs.length = self.nrows ∧ StrColWF w self.strOffs self.strBuf)
    (hnn : newNrows = self.nrows + sumNrows columns)
    (htot : w = 64 → strTotalBytes self.strBuf columns colEmpty < 2 ^ 63)
    (hres : strRbindImpl w self columns newNrows colEmpty = .built o b) :
    o.length = newNrows ∧
    ∀ r, r < newNrows → strAt w o b r = strExpected w self colEmpty columns r :=
  strRbindImpl_spec w self columns newNrows colEmpty o b hw hsrc hself hnn htot hres


theorem sumNrows_take_le :
    ∀ (cols : List Column) (k : Nat) (cv : Column),
      cols.get? k = some cv → sumNrows (cols.take k) + cv.nrows ≤ sumNrows cols := by
  intro cols
  induction cols with
  | nil => intro k cv hget; simp at hget
  | cons c cs ih =>
      intro k cv hget
      cases k with
      | zero =>
          have hc : c = cv := by simpa using hget
          subst hc
          simp only [List.take_zero, sumNrows_cons]
          have h0 : sumNrows [] = 0 := rfl
          omega
      | succ k' =>
          have hget' : cs.get? k' = some cv := by simpa using hget
          rw [List.take_succ_cons, sumNrows_cons, sumNrows_cons]
          have := ih k' cv hget'
          omega

theorem blockValue_void :
    ∀ (cols : List Column) (k : Nat) (cv : Column),
      cols.get? k = some cv → cv.stype = .void →
      ∀ j, j < cv.nrows → blockValue cols (sumNrows (cols.take k) + j) = none := by
  intro cols
  induction cols with
  | nil => intro k cv hget; simp at hget
  | cons c cs ih =>
      intro k cv hget hcv j hj
      cases k with
      | zero =>
          have hc : c = cv := by simpa using hget
          subst hc
          have h0 : sumNrows (List.take 0 (c :: cs)) = 0 := rfl
          rw [h0]
          simp only [blockValue, Nat.zero_add]
          rw [if_pos hj]
          unfold colStrValue
          rw [if_pos hcv]
      | succ k' =>
          have hget' : cs.get? k' = some cv := by simpa using hget
          rw [List.take_succ_cons, sumNrows_cons]
          simp only [blockValue]
          rw [if_neg (by omega)]
          have hidx : c.nrows + sumNrows (cs.take k') + j - c.nrows
              = sumNrows (cs.take k') + j := by omega
          rw [hidx]
          exact ih k' cv hget' hcv j hj

theorem fwNormalize_length (st : SType)
    (hst : st.ltype = .ltbool ∨ st.ltype = .ltint ∨ st.ltype = .ltreal)
    {c : Column} (hwf : FwSrcWF c) (hv : ¬ c.stype = .void) :
    (fwNormalize st c).fwVals.length = c.nrows := by
  rcases hwf with h | ⟨vals, himpl, hlen⟩
  · exact absurd h hv
  · unfold fwNormalize
    by_cases he : c.stype = st
    · rw [if_pos he]
      unfold Column.fwVals
      rw [himpl]
      exact hlen
    · rw [if_neg he]
      have hc : castColumn c st = ⟨st, c.nrows, .fw vals⟩ := by
        unfold castColumn
        rw [himpl]
        rcases hst with h | h | h <;> rw [h]
      rw [hc]
      exact hlen

theorem fwLoop_eq (st : SType) :
    ∀ (cols : List Column) (acc : List (Option Int)) (pending : Nat),
      fwLoop st cols acc pending =
        acc ++ List.replicate pending (none : Option Int) ++ fwBlocks st cols := by
  intro cols
  induction cols with
  | nil => intro acc pending; simp only [fwLoop, fwBlocks, List.append_nil]
  | cons c cs ih =>
      intro acc pending
      simp only [fwLoop, fwBlocks]
      by_cases hv : c.stype = .void
      · rw [if_pos hv, if_pos hv, ih]
        rw [List.replicate_add]
        simp only [List.append_assoc]
      · rw [if_neg hv, if_neg hv, ih]
        simp [List.append_assoc]

theorem fwBlocks_void_get (st : SType)
    (hst : st.ltype = .ltbool ∨ st.ltype = .ltint ∨ st.ltype = .ltreal) :
    ∀ (cols : List Column) (k : Nat) (cv : Column),
      (∀ x ∈ cols, FwSrcWF x) →
      cols.get? k = some cv → cv.stype = .void →
      ∀ j, j < cv.nrows →
        (fwBlocks st cols).get? (sumNrows (cols.take k) + j) = some none := by
  intro cols
  induction cols with
  | nil => intro k cv _ hget; simp at hget
  | cons c cs ih =>
      intro k cv hwf hget hcv j hj
      cases k with
      | zero =>
          have hc : c = cv := by simpa using hget
          subst hc
          have h0 : sumNrows (List.take 0 (c :: cs)) = 0 := rfl
          rw [h0]
          simp only [fwBlocks]
          rw [if_pos hcv]
          rw [List.get?_append (by simp only [List.length_replicate]; omega)]
          rw [List.get?_eq_getElem?, List.getElem?_replicate]
          rw [if_pos (by omega)]
      | succ k' =>
          have hget' : cs.get? k' = some cv := by simpa using hget
          rw [List.take_succ_cons, sumNrows_cons]
          simp only [fwBlocks]
          have hlen : (if c.stype = .void then List.replicate c.nrows (none : Option Int)
              else (fwNormalize st c).fwVals).length = c.nrows := by
            by_cases hv : c.stype = .void
            · rw [if_pos hv]; simp
            · rw [if_neg hv]
              exact fwNormalize_length st hst (hwf c (by simp)) hv
          rw [List.get?_append_right (by rw [hlen]; omega)]
          rw [hlen]
          have hidx : c.nrows + sumNrows (cs.take k') + j - c.nrows
              = sumNrows (cs.take k') + j := by omega
          rw [hidx]
          exact ih k' cv (fun x hx => hwf x (by simp [hx])) hget' hcv j hj

/-- Claim C4: a final column absent from a given source (the source
contributes a VOID placeholder column) receives exactly that source's row
count of missing values, contiguously at that source's row range, in both
the fixed-width appender and the string appender.  Stated for every row j
of the absent source's range: the merged column holds the missing marker
at global row (original rows) + (rows of earlier sources) + j. -/
theorem C4_absent_source_na_fill :
    (∀ (st : SType) (selfVals : List (Option Int)) (selfN : Nat) (ce : Bool)
        (cols : List Column) (k : Nat) (cv : Column),
        (st.ltype = .ltbool ∨ st.ltype = .ltint ∨ st.ltype = .ltreal) →
        (∀ x ∈ cols, FwSrcWF x) →
        (ce = false → selfVals.length = selfN) →
        cols.get? k = some cv → cv.stype = .void →
        ∀ j, j < cv.nrows →
          (fwRbindImpl st selfVals selfN cols ce).get? (selfN + sumNrows (cols.take k) + j)
            = some none) ∧
    (∀ (w : Nat) (self : Column) (columns : List Column) (newNrows : Nat) (ce : Bool)
        (o b : List Nat) (k : Nat) (cv : Column),
        (w = 32 ∨ w = 64) →
        (∀ c ∈ columns, StrSrcWF c) →
        (ce = false → self.strOffs.length = self.nrows ∧ StrColWF w self.strOffs self.strBuf) →
        newNrows = self.nrows + sumNrows columns →
        (w = 64 → strTotalBytes self.strBuf columns ce < 2 ^ 63) →
        strRbindImpl w self columns newNrows ce = .built o b →
        columns.get? k = some cv → cv.stype = .void →
        ∀ j, j < cv.nrows →
          strAt w o b (self.nrows + sumNrows (columns.take k) + j) = none) := by
  constructor
  · intro st selfVals selfN ce cols k cv hst hwf hsl hget hcv j hj
    have hblocks : (fwBlocks st cols).get? (sumNrows (cols.take k) + j) = some none :=
      fwBlocks_void_get st hst cols k cv hwf hget hcv j hj
    unfold fwRbindImpl
    cases ce with
    | false =>
        rw [if_neg (by simp)]
        rw [fwLoop_eq]
        simp only [List.replicate_zero, List.append_nil]
        have hl := hsl rfl
        rw [List.get?_append_right (by omega)]
        have hidx : selfN + sumNrows (cols.take k) + j - selfVals.length
            = sumNrows (cols.take k) + j := by omega
        rw [hidx]
        exact hblocks
    | true =>
        rw [if_pos rfl]
        rw [fwLoop_eq]
        simp only [List.nil_append]
        rw [List.get?_append_right (by simp only [List.length_replicate]; omega)]
        have hidx : selfN + sumNrows (cols.take k) + j
              - (List.replicate selfN (none : Option Int)).length
            = sumNrows (cols.take k) + j := by
          simp only [List.length_replicate]; omega
        rw [hidx]
        exact hblocks
  · intro w self columns newNrows ce o b k cv hw hsrc hself hnn htot hres hget hcv j hj
    obtain ⟨hlen, hdec⟩ :=
      strRbindImpl_spec w self columns newNrows ce o b hw hsrc hself hnn htot hres
    have hle := sumNrows_take_le columns k cv hget
    have hr : self.nrows + sumNrows (columns.take k) + j < newNrows := by omega
    rw [hdec _ hr]
    unfold strExpected
    rw [if_neg (by omega)]
    have hidx : self.nrows + sumNrows (columns.take k) + j - self.nrows
        = sumNrows (columns.take k) + j := by omega
    rw [hidx]
    exact blockValue_void columns k cv hget hcv j hj

/-- Witness for C4: a concrete by-position append where the second block is
a VOID placeholder; the merged int32 column has the missing marker at the
placeholder row, and the merged str32 column (the C2 example) has the
missing marker at its placeholder row. -/
theorem C4_witness :
    (fwRbindImpl .int32 [some 7] 1
        [naColumn 2 .void, ⟨.int32, 2, .fw [some 3, some 4]⟩] false).get? 2 = some none ∧
    strAt 32 [1, 2147483649, 2, 4] [65, 120, 121, 122] 1 = none := by
  constructor
  · exact C4_absent_source_na_fill.1 .int32 [some 7] 1 false
      [naColumn 2 .void, ⟨.int32, 2, .fw [some 3, some 4]⟩] 0 (naColumn 2 .void)
      (Or.inr (Or.inl rfl))
      (by intro x hx
          rcases List.mem_cons.mp hx with rfl | hx2
          · exact Or.inl rfl
          · rcases List.mem_cons.mp hx2 with rfl | hx3
            · exact Or.inr ⟨[some 3, some 4], rfl, rfl⟩
            · simp at hx3)
      (fun _ => rfl) rfl rfl 1 (by decide)
  · exact C4_absent_source_na_fill.2 32 exStr32 [naColumn 1 .void, exStr64] 4 false
      [1, 2147483649, 2, 4] [65, 120, 121, 122] 0 (naColumn 1 .void)
      (Or.inl rfl) (by decide) (by decide) (by decide)
      (by intro h; exact absurd h (by decide)) (by decide) rfl rfl 0 (by decide)

/-- Witness for C2: a concrete mixed-width merge: a one-row str32 column
("A"), then a VOID placeholder row, then a two-row str64 column, merged at
width 32; every row decodes to the expected value. -/
theorem C2_witness :
    ([1, 2147483649, 2, 4] : List Nat).length = 4 ∧
    ∀ r, r < 4 → strAt 32 [1, 2147483649, 2, 4] [65, 120, 121, 122] r
        = strExpected 32 exStr32 false [naColumn 1 .void, exStr64] r :=
  C2_string_round_trip 32 exStr32 [naColumn 1 .void, exStr64] 4 false
    [1, 2147483649, 2, 4] [65, 120, 121, 122]
    (Or.inl rfl) (by decide) (by decide) (by decide)
    (by intro h; exact absurd h (by decide)) (by decide)

end Datatable
